import Mathlib

/-!
Verification of the Streaming Identification & Correlation Engine
(`l_identifying.py`, `range_combining.py`, `credential_connecting.py`).

Tokens in the source are opaque truncated digest strings, compared and
sorted only through their (lexicographic) linear order.  The embedding is
therefore generic over a linearly ordered token type `α`; concrete runs
instantiate `α := ℕ`.  Python dicts are modelled as insertion-ordered
association lists with pairwise-distinct keys, which matches dict
iteration order, `pop`, `update` and membership.
-/

namespace Engine

/-- Keys of an association list (Python `dict.keys()`, in insertion order). -/
def keysOf {β : Type} (t : List (β × Nat)) : List β :=
  t.map Prod.fst

/-- Python `k in d` on an association list. -/
def hasKey {β : Type} [DecidableEq β] (t : List (β × Nat)) (k : β) : Bool :=
  (keysOf t).contains k

/-- Python `d[k] += 1` after `d[k] = 1` insertion when absent
(`l_identifying.py` lines 71-74). -/
def bumpKey {β : Type} [DecidableEq β] (t : List (β × Nat)) (k : β) : List (β × Nat) :=
  if hasKey t k then t.map (fun p => if p.1 = k then (p.1, p.2 + 1) else p)
  else t ++ [(k, 1)]

/-- Python `tuple(sorted(window))`: the canonical Signature of a window. -/
def signature {α : Type} [LinearOrder α] (w : List α) : List α :=
  List.insertionSort (· ≤ ·) w

/-- State of `LIdentifyingAttack` (`l_identifying.py`): the signature
table `_query_dict`, the sliding buffer `_current_window`, the processed
counter `_query_count`, and the constructor parameters. -/
structure LIdentifyingAttack (α : Type) where
  query_dict : List (List α × Nat)
  current_window : List α
  query_count : Nat
  l : Nat
  prune_threshold : Nat
  prune_interval : Nat

/-- A fresh tracker: `LIdentifyingAttack.__init__`. -/
def LIdentifyingAttack.init (α : Type) (l thr interval : Nat) : LIdentifyingAttack α :=
  ⟨[], [], 0, l, thr, interval⟩

/-- `LIdentifyingAttack._prune`: keep exactly the entries whose count is
at least `prune_threshold`. -/
def LIdentifyingAttack.prune {α : Type} (s : LIdentifyingAttack α) : LIdentifyingAttack α :=
  { s with query_dict := s.query_dict.filter (fun p => s.prune_threshold ≤ p.2) }

/-- `LIdentifyingAttack.process` (`l_identifying.py` lines 53-83): bump
the counter, append the token to the buffer, on `len(buffer) >= l` bump
the signature of the first `l` buffered tokens, on `len(buffer) > l`
drop the oldest token, and prune when the counter hits a multiple of
`prune_interval`.  (The source's lines 75-76 write an unchanged count
back into the dict, a no-op, and are not modelled.) -/
def LIdentifyingAttack.process {α : Type} [LinearOrder α]
    (s : LIdentifyingAttack α) (q : α) : LIdentifyingAttack α :=
  let cnt := s.query_count + 1
  let w := s.current_window ++ [q]
  let d := if s.l ≤ w.length then bumpKey s.query_dict (signature (w.take s.l))
           else s.query_dict
  let w' := if s.l < w.length then w.tail else w
  let s' : LIdentifyingAttack α :=
    { s with query_dict := d, current_window := w', query_count := cnt }
  if cnt % s.prune_interval = 0 then s'.prune else s'

/-- `LIdentifyingAttack.get_result`: a copy of the signature table. -/
def LIdentifyingAttack.get_result {α : Type} (s : LIdentifyingAttack α) :
    List (List α × Nat) :=
  s.query_dict

/-- `LIdentifyingAttack.reset`: clear the dict, zero the counter
(`_current_window` is left untouched by the source). -/
def LIdentifyingAttack.reset {α : Type} (s : LIdentifyingAttack α) : LIdentifyingAttack α :=
  { s with query_dict := [], query_count := 0 }

/-- Feeding a whole stream, one `process` call per token. -/
def runStream {α : Type} [LinearOrder α]
    (s : LIdentifyingAttack α) (stream : List α) : LIdentifyingAttack α :=
  stream.foldl LIdentifyingAttack.process s

end Engine

namespace Engine

/-- C6: for every window and every permutation of it, the Tracker computes
the same signature, and the signature is itself a permutation of the
window (the sorted L-tuple retains duplicates), so two windows with the
same multiset of tokens hit the same SignatureTable entry. -/
theorem signature_perm_invariant {α : Type} [LinearOrder α] (w₁ w₂ : List α)
    (h : w₁.Perm w₂) :
    signature w₁ = signature w₂ ∧ (signature w₁).Perm w₁ := by
  constructor
  · exact List.eq_of_perm_of_sorted
      (((List.perm_insertionSort (· ≤ ·) w₁).trans h).trans
        (List.perm_insertionSort (· ≤ ·) w₂).symm)
      (List.sorted_insertionSort (· ≤ ·) w₁)
      (List.sorted_insertionSort (· ≤ ·) w₂)
  · exact List.perm_insertionSort (· ≤ ·) w₁

/-- Witness for C6 at the concrete windows `[1,0,2]` and `[2,1,0]`. -/
theorem signature_perm_invariant_witness :
    signature [1,0,2] = signature [2,1,0] ∧ (signature [1,0,2]).Perm [1,0,2] :=
  signature_perm_invariant [1,0,2] [2,1,0] (by decide)

/-- C7: whenever `process` triggers a pruning pass (the incremented token
counter is a multiple of `prune_interval`), every entry of the resulting
SignatureTable has count at least `prune_threshold`. -/
theorem prune_pass_bound {α : Type} [LinearOrder α]
    (s : LIdentifyingAttack α) (q : α)
    (h : (s.query_count + 1) % s.prune_interval = 0) :
    ∀ kv ∈ (s.process q).query_dict, s.prune_threshold ≤ kv.2 := by
  intro kv hkv
  simp only [LIdentifyingAttack.process, h, if_true, LIdentifyingAttack.prune] at hkv
  simp only [List.mem_filter] at hkv
  exact of_decide_eq_true hkv.2

/-- Witness for C7: a tracker with `prune_interval = 1` prunes on the
very first token and is left with no below-threshold entry. -/
theorem prune_pass_bound_witness :
    (0 + 1) % 1 = 0 ∧
      ∀ kv ∈ ((LIdentifyingAttack.init Nat 1 2 1).process 5).query_dict,
        2 ≤ kv.2 :=
  ⟨by decide, prune_pass_bound (LIdentifyingAttack.init Nat 1 2 1) 5 (by decide)⟩

/-- C10: `reset` empties the SignatureTable and zeroes the processed
counter but leaves the sliding buffer untouched, so tokens processed
before the reset still combine with the next token into the first
window counted after the reset. -/
theorem reset_frame {α : Type} [LinearOrder α] (s : LIdentifyingAttack α) :
    s.reset.query_dict = [] ∧ s.reset.query_count = 0 ∧
      s.reset.current_window = s.current_window ∧
      ∀ q : α, s.l = s.current_window.length + 1 → 1 % s.prune_interval ≠ 0 →
        (s.reset.process q).query_dict = [(signature (s.current_window ++ [q]), 1)] := by
  refine ⟨rfl, rfl, rfl, ?_⟩
  intro q hl hint
  simp only [LIdentifyingAttack.process, LIdentifyingAttack.reset]
  rw [if_neg hint]
  have hlen : (s.current_window ++ [q]).length = s.l := by
    simp [hl]
  rw [if_pos (le_of_eq hlen.symm)]
  rw [List.take_of_length_le (le_of_eq hlen)]
  rfl

/-- Witness for C10: a tracker with `l = 3` holding `[7,8]` in its buffer
is reset and then fed `6`; the pre-reset tokens form the new window. -/
theorem reset_frame_witness :
    (LIdentifyingAttack.reset ⟨[([5],4)], [7,8], 9, 3, 2, 100⟩).query_dict = [] ∧
      (LIdentifyingAttack.reset ⟨[([5],4)], [7,8], 9, 3, 2, 100⟩).query_count = 0 ∧
      (LIdentifyingAttack.reset ⟨[([5],4)], [7,8], 9, 3, 2, 100⟩).current_window = [7,8] ∧
      ∀ q : Nat, 3 = [7,8].length + 1 → 1 % 100 ≠ 0 →
        ((LIdentifyingAttack.reset ⟨[([5],4)], [7,8], 9, 3, 2, 100⟩).process q).query_dict
          = [(signature ([7,8] ++ [q]), 1)] :=
  reset_frame ⟨[([5],4)], [7,8], 9, 3, 2, 100⟩

/-- C1 counterexample: on the stream `[a,b,c,a,b,c,a,b,c]` (tokens
modelled as `0,1,2`) with `L = 3`, threshold 2, interval 100, the
Tracker's result is not the single entry `(sorted(a,b,c), 3)`: the
window slides by one token, so the signature is counted 7 times. -/
theorem tracker_end_to_end_counterexample :
    (runStream (LIdentifyingAttack.init Nat 3 2 100) [0,1,2,0,1,2,0,1,2]).get_result
      ≠ [([0,1,2], 3)] := by decide

/-- C1 amended: the same run yields exactly one entry, the signature
`sorted(a,b,c)`, with occurrence count 7 (one per sliding window of the
9-token stream). -/
theorem tracker_end_to_end :
    (runStream (LIdentifyingAttack.init Nat 3 2 100) [0,1,2,0,1,2,0,1,2]).get_result
      = [([0,1,2], 7)] := by decide

end Engine

namespace Engine

/-- A per-length SignatureTable: a Python dict Signature → count. -/
abbrev Table (α : Type) := List (List α × Nat)

/-- Python `d.pop(k)` guarded by `if k in d` (removing a key is a no-op
when the key is absent, so the guard folds into the filter). -/
def popKey {α : Type} [DecidableEq α] (t : Table α) (k : List α) : Table α :=
  t.filter (fun p => p.1 ≠ k)

/-- The contiguous sub-slice `s[i : i+m]`. -/
def sliceAt {α : Type} (s : List α) (i m : Nat) : List α :=
  (s.drop i).take m

/-- The sub-slices `s[i : i+m]` for `i in range(c)`. -/
def slicesOf {α : Type} (s : List α) (m c : Nat) : List (List α) :=
  (List.range c).map (fun i => sliceAt s i m)

/-- The double loop `for subseq in ks: for i in range(c): x.pop(subseq[i:i+m])`
shared by both pruning branches of `load_l_identifying_result`. -/
def prunePops {α : Type} [DecidableEq α] (x : Table α) (ks : List (List α)) (m c : Nat) :
    Table α :=
  ks.foldl (fun acc s => (slicesOf s m c).foldl popKey acc) x

/-- Python `dict.update`: keys already present are overwritten in place,
new keys are appended in `d`'s order. -/
def updateTable {α : Type} [DecidableEq α] (t d : Table α) : Table α :=
  d.foldl (fun acc kv =>
    if hasKey acc kv.1 then acc.map (fun p => if p.1 = kv.1 then (p.1, kv.2) else p)
    else acc ++ [kv]) t

/-- The scan `for pos, l in enumerate(self._lengths_processed)` of
`load_l_identifying_result` (`range_combining.py` lines 68-82): prune
already-stored shorter tables against the incoming keys, prune the
incoming dict against already-stored longer tables, and track
`smaller_pos`, the last position whose length is `≤` the new length
(`none` models the initial `-1`). -/
def loadLoop {α : Type} [DecidableEq α] (L : Nat) :
    List (Nat × Table α) → Table α → Option Nat → Nat →
      List (Nat × Table α) × Table α × Option Nat
  | [], rd, sp, _ => ([], rd, sp)
  | (l, tbl) :: rest, rd, sp, pos =>
    if l < L then
      let out := loadLoop L rest rd (some pos) (pos + 1)
      ((l, prunePops tbl (keysOf rd) l (L - l)) :: out.1, out.2)
    else if L < l then
      let out := loadLoop L rest (prunePops rd (keysOf tbl) L (l - L)) sp (pos + 1)
      ((l, tbl) :: out.1, out.2)
    else
      let out := loadLoop L rest rd (some pos) (pos + 1)
      ((l, tbl) :: out.1, out.2)

/-- Final dispatch of `load_l_identifying_result` when `smaller_pos ≥ 0`:
insert after the anchor when its length is strictly smaller, merge by
`dict.update` when equal, `raise ValueError` (`none`) otherwise. -/
def loadAtPos {α : Type} [DecidableEq α]
    (st' : List (Nat × Table α)) (rd' : Table α) (L p : Nat) :
    Option (List (Nat × Table α)) :=
  match st'[p]? with
  | some (lp, tp) =>
    if lp < L then some (st'.insertIdx (p + 1) (L, rd'))
    else if lp = L then some (st'.set p (lp, updateTable tp rd'))
    else none
  | none => none

/-- Final dispatch when `smaller_pos` stayed `-1`: Python indexes
`_lengths_processed[-1]`, the last entry, and `insert(0, ...)` would
put the new table in front; with every stored length `> L` this falls
through to `raise ValueError` (`none`). -/
def loadAtEnd {α : Type} [DecidableEq α]
    (st' : List (Nat × Table α)) (rd' : Table α) (L : Nat) :
    Option (List (Nat × Table α)) :=
  match st'.getLast? with
  | some (llast, _) => if llast < L then some ((L, rd') :: st') else none
  | none => none

/-- `RangeCombiningAttack.load_l_identifying_result`: the combiner state
is the list of `(length, table)` entries, `_lengths_processed` zipped
with `_combined_results` in stored order.  Returns `none` exactly where
the source raises `ValueError` (and on the out-of-range index accesses
the source could only reach from states it never constructs). -/
def loadResult {α : Type} [DecidableEq α]
    (st : List (Nat × Table α)) (rd : Table α) (L : Nat) :
    Option (List (Nat × Table α)) :=
  match st with
  | [] => some [(L, rd)]
  | _ :: _ =>
    let out := loadLoop L st rd none 0
    match out.2.2 with
    | some p => loadAtPos out.1 out.2.1 L p
    | none => loadAtEnd out.1 out.2.1 L

/-- `RangeCombiningAttack.get_result`: concatenate the signature keys of
every stored table, in storage order, discarding counts. -/
def combinedResult {α : Type} (st : List (Nat × Table α)) : List (List α) :=
  st.flatMap (fun e => keysOf e.2)

/-- The combiner states the source can actually construct: the empty
initial state, grown one successful `load_l_identifying_result` call at
a time, each fed a genuine Python dict (pairwise-distinct keys). -/
inductive ReachableCombiner {α : Type} [DecidableEq α] :
    List (Nat × Table α) → Prop
  | base : ReachableCombiner []
  | step {st st' : List (Nat × Table α)} {rd : Table α} {L : Nat} :
      ReachableCombiner st → (keysOf rd).Nodup →
      loadResult st rd L = some st' → ReachableCombiner st'

/-- The cross-table relation maintained by the combiner: no key of the
earlier (shorter) table is one of the sub-slices, at offsets `0` through
`|Lb - La| - 1`, of a key of the later (longer) table. -/
def sliceFree {α : Type} [DecidableEq α] (a b : Nat × Table α) : Prop :=
  ∀ k ∈ keysOf b.2, ∀ i < b.1 - a.1, sliceAt k i a.1 ∉ keysOf a.2

/-- The combiner's standing invariant: lengths strictly increase along
the stored order, every earlier/later pair is `sliceFree`, and every
stored table has pairwise-distinct keys. -/
def CombinerInv {α : Type} [DecidableEq α] (st : List (Nat × Table α)) : Prop :=
  st.Pairwise (fun a b => a.1 < b.1 ∧ sliceFree a b) ∧
    ∀ e ∈ st, (keysOf e.2).Nodup

end Engine

namespace Engine

/-- All sub-slices `s[i : i+m]`, `i in range(c)`, over a list of keys. -/
def sliceSet {α : Type} (ks : List (List α)) (m c : Nat) : List (List α) :=
  ks.flatMap (fun s => slicesOf s m c)

theorem foldl_popKey_eq_filter {α : Type} [DecidableEq α]
    (sl : List (List α)) (t : Table α) :
    sl.foldl popKey t = t.filter (fun p => !(sl.contains p.1)) := by
  induction sl generalizing t with
  | nil => simp
  | cons k ks ih =>
    rw [List.foldl_cons, ih, popKey, List.filter_filter]
    congr 1
    funext p
    by_cases h : p.1 = k <;> by_cases h' : ks.contains p.1 <;>
      simp [h, h', List.contains_cons]

theorem prunePops_eq_filter {α : Type} [DecidableEq α]
    (x : Table α) (ks : List (List α)) (m c : Nat) :
    prunePops x ks m c = x.filter (fun p => !((sliceSet ks m c).contains p.1)) := by
  induction ks generalizing x with
  | nil => simp [prunePops, sliceSet]
  | cons s ss ih =>
    have hstep : prunePops x (s :: ss) m c
        = prunePops ((slicesOf s m c).foldl popKey x) ss m c := rfl
    rw [hstep, ih, foldl_popKey_eq_filter, List.filter_filter]
    congr 1
    funext p
    have hset : sliceSet (s :: ss) m c = slicesOf s m c ++ sliceSet ss m c := rfl
    rw [hset]
    by_cases h : p.1 ∈ slicesOf s m c <;> by_cases h' : p.1 ∈ sliceSet ss m c <;>
      simp [h, h']

theorem mem_keysOf_iff {β : Type} {t : List (β × Nat)} {k : β} :
    k ∈ keysOf t ↔ ∃ v, (k, v) ∈ t := by
  constructor
  · intro h
    rcases List.mem_map.mp h with ⟨p, hp, hpk⟩
    exact ⟨p.2, by simpa [← hpk] using hp⟩
  · rintro ⟨v, hv⟩
    exact List.mem_map.mpr ⟨(k, v), hv, rfl⟩

theorem mem_keysOf_filter {β : Type} {t : List (β × Nat)} {q : β × Nat → Bool} {k : β}
    (hq : ∀ v v' : Nat, q (k, v) = q (k, v')) :
    k ∈ keysOf (t.filter q) ↔ k ∈ keysOf t ∧ ∀ v : Nat, q (k, v) = true := by
  constructor
  · intro h
    rcases mem_keysOf_iff.mp h with ⟨v, hv⟩
    rcases List.mem_filter.mp hv with ⟨hmem, hqv⟩
    exact ⟨mem_keysOf_iff.mpr ⟨v, hmem⟩, fun v' => (hq v v') ▸ hqv⟩
  · rintro ⟨hmem, hall⟩
    rcases mem_keysOf_iff.mp hmem with ⟨v, hv⟩
    exact mem_keysOf_iff.mpr ⟨v, List.mem_filter.mpr ⟨hv, hall v⟩⟩

theorem mem_sliceSet {α : Type} {ks : List (List α)} {m c : Nat} {k : List α} :
    k ∈ sliceSet ks m c ↔ ∃ s ∈ ks, ∃ i < c, k = sliceAt s i m := by
  simp only [sliceSet, List.mem_flatMap, slicesOf, List.mem_map, List.mem_range]
  constructor
  · rintro ⟨s, hs, i, hi, rfl⟩
    exact ⟨s, hs, i, hi, rfl⟩
  · rintro ⟨s, hs, i, hi, rfl⟩
    exact ⟨s, hs, i, hi, rfl⟩

theorem mem_keysOf_prunePops {α : Type} [DecidableEq α]
    {x : Table α} {ks : List (List α)} {m c : Nat} {k : List α} :
    k ∈ keysOf (prunePops x ks m c) ↔
      k ∈ keysOf x ∧ ∀ s ∈ ks, ∀ i < c, k ≠ sliceAt s i m := by
  rw [prunePops_eq_filter, mem_keysOf_filter (by intro v v'; rfl)]
  constructor
  · rintro ⟨hx, hall⟩
    refine ⟨hx, ?_⟩
    intro s hs i hi hk
    have h0 := hall 0
    simp only [Bool.not_eq_true'] at h0
    have : k ∉ sliceSet ks m c := by simpa using h0
    exact this (mem_sliceSet.mpr ⟨s, hs, i, hi, hk⟩)
  · rintro ⟨hx, hall⟩
    refine ⟨hx, fun v => ?_⟩
    have : k ∉ sliceSet ks m c := by
      intro hmem
      rcases mem_sliceSet.mp hmem with ⟨s, hs, i, hi, hk⟩
      exact hall s hs i hi hk
    simpa using this

theorem keysOf_prunePops_subset {α : Type} [DecidableEq α]
    {x : Table α} {ks : List (List α)} {m c : Nat} :
    keysOf (prunePops x ks m c) ⊆ keysOf x := by
  intro k hk
  exact (mem_keysOf_prunePops.mp hk).1

theorem prunePops_idem {α : Type} [DecidableEq α]
    (x : Table α) (ks : List (List α)) (m c : Nat) :
    prunePops (prunePops x ks m c) ks m c = prunePops x ks m c := by
  rw [prunePops_eq_filter x, prunePops_eq_filter, List.filter_filter]
  congr 1
  funext p
  exact Bool.and_self _

theorem nodup_keysOf_filter {β : Type} {t : List (β × Nat)} {q : β × Nat → Bool}
    (h : (keysOf t).Nodup) : (keysOf (t.filter q)).Nodup :=
  (List.Sublist.map Prod.fst (List.filter_sublist t)).nodup h

theorem nodup_keysOf_prunePops {α : Type} [DecidableEq α]
    {x : Table α} {ks : List (List α)} {m c : Nat}
    (h : (keysOf x).Nodup) : (keysOf (prunePops x ks m c)).Nodup := by
  rw [prunePops_eq_filter]
  exact nodup_keysOf_filter h

end Engine

namespace Engine

/-- First entry with the given key, Python `d[k]` on our dict model. -/
def findEntry {β : Type} [DecidableEq β] (t : List (β × Nat)) (k : β) :
    Option (β × Nat) :=
  t.find? (fun p => p.1 = k)

/-- One step of `dict.update`: overwrite in place or append. -/
def updateStep {β : Type} [DecidableEq β] (t : List (β × Nat)) (kv : β × Nat) :
    List (β × Nat) :=
  if hasKey t kv.1 then t.map (fun p => if p.1 = kv.1 then (p.1, kv.2) else p)
  else t ++ [kv]

theorem updateTable_eq_foldl {α : Type} [DecidableEq α] (t d : Table α) :
    updateTable t d = d.foldl updateStep t := rfl

theorem keysOf_append {β : Type} (t u : List (β × Nat)) :
    keysOf (t ++ u) = keysOf t ++ keysOf u := by
  simp [keysOf]

theorem keysOf_updateStep {β : Type} [DecidableEq β] (t : List (β × Nat)) (kv : β × Nat) :
    keysOf (updateStep t kv)
      = if hasKey t kv.1 then keysOf t else keysOf t ++ [kv.1] := by
  by_cases h : hasKey t kv.1
  · simp only [updateStep, h, if_true, keysOf, List.map_map]
    refine List.map_congr_left ?_
    intro p _
    by_cases hp : p.1 = kv.1 <;> simp [hp, Function.comp]
  · simp [updateStep, h, keysOf_append, keysOf]

theorem hasKey_iff {β : Type} [DecidableEq β] {t : List (β × Nat)} {k : β} :
    hasKey t k = true ↔ k ∈ keysOf t := by
  simp [hasKey]

theorem mem_keysOf_updateStep {β : Type} [DecidableEq β]
    {t : List (β × Nat)} {kv : β × Nat} {k : β} :
    k ∈ keysOf (updateStep t kv) ↔ k ∈ keysOf t ∨ k = kv.1 := by
  rw [keysOf_updateStep]
  by_cases h : hasKey t kv.1
  · simp only [h, if_true]
    constructor
    · exact Or.inl
    · rintro (hk | rfl)
      · exact hk
      · exact hasKey_iff.mp h
  · simp [h]

theorem mem_keysOf_updateTable {α : Type} [DecidableEq α]
    {t d : Table α} {k : List α} :
    k ∈ keysOf (updateTable t d) ↔ k ∈ keysOf t ∨ k ∈ keysOf d := by
  rw [updateTable_eq_foldl]
  induction d generalizing t with
  | nil => simp [keysOf]
  | cons kv d ih =>
    rw [List.foldl_cons, ih, mem_keysOf_updateStep]
    have hcons : keysOf (kv :: d) = kv.1 :: keysOf d := rfl
    rw [hcons, List.mem_cons]
    tauto

theorem nodup_keysOf_updateStep {β : Type} [DecidableEq β]
    {t : List (β × Nat)} {kv : β × Nat}
    (h : (keysOf t).Nodup) : (keysOf (updateStep t kv)).Nodup := by
  rw [keysOf_updateStep]
  by_cases hk : hasKey t kv.1
  · simpa [hk] using h
  · have : kv.1 ∉ keysOf t := fun hmem => hk (hasKey_iff.mpr hmem)
    simp only [hk, if_false]
    exact List.Nodup.append h (List.nodup_singleton _)
      (by simpa [List.disjoint_singleton] using this)

theorem nodup_keysOf_updateTable {α : Type} [DecidableEq α]
    {t d : Table α} (h : (keysOf t).Nodup) : (keysOf (updateTable t d)).Nodup := by
  rw [updateTable_eq_foldl]
  induction d generalizing t with
  | nil => exact h
  | cons kv d ih => exact ih (nodup_keysOf_updateStep h)

end Engine

namespace Engine

theorem keysOf_cons {β : Type} (p : β × Nat) (t : List (β × Nat)) :
    keysOf (p :: t) = p.1 :: keysOf t := rfl

theorem eq_of_mem_of_nodup_keys {β : Type} [DecidableEq β]
    {t : List (β × Nat)} {p q : β × Nat}
    (hnd : (keysOf t).Nodup) (hp : p ∈ t) (hq : q ∈ t) (h : p.1 = q.1) : p = q := by
  induction t with
  | nil => cases hp
  | cons a t ih =>
    rw [keysOf_cons, List.nodup_cons] at hnd
    rcases List.mem_cons.mp hp with rfl | hp' <;>
      rcases List.mem_cons.mp hq with rfl | hq'
    · rfl
    · exact absurd (h ▸ mem_keysOf_iff.mpr ⟨q.2, hq'⟩) hnd.1
    · exact absurd (h ▸ mem_keysOf_iff.mpr ⟨p.2, hp'⟩) (h ▸ hnd.1)
    · exact ih hnd.2 hp' hq'

theorem findEntry_eq_some_of_mem {β : Type} [DecidableEq β]
    {t : List (β × Nat)} {kv : β × Nat}
    (hnd : (keysOf t).Nodup) (hmem : kv ∈ t) : findEntry t kv.1 = some kv := by
  induction t with
  | nil => cases hmem
  | cons p t ih =>
    rw [keysOf_cons, List.nodup_cons] at hnd
    rcases List.mem_cons.mp hmem with rfl | hmem'
    · exact List.find?_cons_of_pos _ (by simp)
    · have hne : p.1 ≠ kv.1 := by
        intro he
        exact hnd.1 (he ▸ mem_keysOf_iff.mpr ⟨kv.2, hmem'⟩)
      rw [findEntry, List.find?_cons_of_neg _ (by simp [hne])]
      exact ih hnd.2 hmem'

theorem findEntry_mem {β : Type} [DecidableEq β]
    {t : List (β × Nat)} {k : β} {kv : β × Nat}
    (h : findEntry t k = some kv) : kv ∈ t ∧ kv.1 = k := by
  refine ⟨List.mem_of_find?_eq_some h, ?_⟩
  have := List.find?_some h
  simpa using this

theorem findEntry_isSome_of_hasKey {β : Type} [DecidableEq β]
    {t : List (β × Nat)} {k : β} (h : hasKey t k = true) :
    ∃ kv, findEntry t k = some kv := by
  rcases mem_keysOf_iff.mp (hasKey_iff.mp h) with ⟨v, hv⟩
  have : (t.find? (fun p => p.1 = k)).isSome := by
    rw [List.find?_isSome]
    exact ⟨(k, v), hv, by simp⟩
  rcases Option.isSome_iff_exists.mp this with ⟨kv, hkv⟩
  exact ⟨kv, hkv⟩

theorem findEntry_map_overwrite {β : Type} [DecidableEq β]
    (t : List (β × Nat)) (k0 : β) (v0 : Nat) (k : β) :
    findEntry (t.map (fun p => if p.1 = k0 then (p.1, v0) else p)) k
      = (findEntry t k).map (fun p => if p.1 = k0 then (p.1, v0) else p) := by
  have hfst : ∀ q : β × Nat, (if q.1 = k0 then (q.1, v0) else q).1 = q.1 := by
    intro q
    by_cases h0 : q.1 = k0 <;> simp [h0]
  induction t with
  | nil => rfl
  | cons p t ih =>
    by_cases hp : p.1 = k
    · rw [List.map_cons, findEntry, findEntry,
        List.find?_cons_of_pos _ (by rw [decide_eq_true_eq, hfst p]; exact hp),
        List.find?_cons_of_pos _ (by simp [hp])]
      rfl
    · rw [List.map_cons, findEntry, findEntry,
        List.find?_cons_of_neg _ (by rw [decide_eq_true_eq, hfst p]; exact hp),
        List.find?_cons_of_neg _ (by simp [hp])]
      exact ih

theorem findEntry_updateStep_self {β : Type} [DecidableEq β]
    (t : List (β × Nat)) (kv : β × Nat) :
    findEntry (updateStep t kv) kv.1 = some kv := by
  by_cases h : hasKey t kv.1
  · simp only [updateStep, h, if_true]
    rw [findEntry_map_overwrite]
    rcases findEntry_isSome_of_hasKey h with ⟨q, hq⟩
    rw [hq]
    rcases findEntry_mem hq with ⟨_, hq1⟩
    simp [hq1]
  · unfold updateStep
    rw [if_neg h, findEntry, List.find?_append]
    have hnone : t.find? (fun p => decide (p.1 = kv.1)) = none := by
      rw [List.find?_eq_none]
      intro p hp hpk
      have hp1 : p.1 = kv.1 := by simpa using hpk
      exact h (hasKey_iff.mpr (hp1 ▸ mem_keysOf_iff.mpr ⟨p.2, hp⟩))
    rw [hnone]
    simp

end Engine

namespace Engine

theorem findEntry_updateStep_other {β : Type} [DecidableEq β]
    (t : List (β × Nat)) (kv : β × Nat) {k : β} (hne : k ≠ kv.1) :
    findEntry (updateStep t kv) k = findEntry t k := by
  by_cases h : hasKey t kv.1
  · simp only [updateStep, h, if_true]
    rw [findEntry_map_overwrite]
    cases hfe : findEntry t k with
    | none => rfl
    | some q =>
      rcases findEntry_mem hfe with ⟨_, hq1⟩
      have : q.1 ≠ kv.1 := hq1 ▸ hne
      simp [this]
  · unfold updateStep
    rw [if_neg h, findEntry, List.find?_append]
    have hlast : List.find? (fun p => decide (p.1 = k)) [kv] = none := by
      simp [Ne.symm hne]
    rw [hlast]
    cases hfe : findEntry t k with
    | none => rw [findEntry] at hfe; rw [hfe]; rfl
    | some q => rw [findEntry] at hfe; rw [hfe]; rfl

theorem findEntry_updateTable_not_mem {α : Type} [DecidableEq α]
    {t d : Table α} {k : List α} (h : k ∉ keysOf d) :
    findEntry (updateTable t d) k = findEntry t k := by
  rw [updateTable_eq_foldl]
  induction d generalizing t with
  | nil => rfl
  | cons kv d ih =>
    rw [keysOf_cons] at h
    rw [List.foldl_cons, ih (fun hk => h (List.mem_cons_of_mem _ hk)),
      findEntry_updateStep_other t kv (fun he => h (he ▸ List.mem_cons_self _ _))]

theorem findEntry_updateTable_of_mem {α : Type} [DecidableEq α]
    {t d : Table α} {kv : List α × Nat}
    (hd : (keysOf d).Nodup) (hmem : kv ∈ d) :
    findEntry (updateTable t d) kv.1 = some kv := by
  rw [updateTable_eq_foldl]
  induction d generalizing t with
  | nil => cases hmem
  | cons p d ih =>
    rw [keysOf_cons, List.nodup_cons] at hd
    rcases List.mem_cons.mp hmem with rfl | hmem'
    · rw [List.foldl_cons,
        show d.foldl updateStep (updateStep t kv) = updateTable (updateStep t kv) d from rfl,
        findEntry_updateTable_not_mem hd.1]
      exact findEntry_updateStep_self t kv
    · exact List.foldl_cons _ _ ▸ ih hd.2 hmem'

theorem updateTable_eq_self {α : Type} [DecidableEq α] {t d : Table α}
    (hnd : (keysOf t).Nodup) (h : ∀ kv ∈ d, findEntry t kv.1 = some kv) :
    updateTable t d = t := by
  rw [updateTable_eq_foldl]
  induction d with
  | nil => rfl
  | cons kv d ih =>
    have hkv := h kv (List.mem_cons_self _ _)
    have hmem : kv ∈ t := (findEntry_mem hkv).1
    have hk : hasKey t kv.1 = true :=
      hasKey_iff.mpr (mem_keysOf_iff.mpr ⟨kv.2, hmem⟩)
    have hstep : updateStep t kv = t := by
      simp only [updateStep, hk, if_true]
      conv_rhs => rw [← List.map_id t]
      refine List.map_congr_left ?_
      intro p hp
      by_cases hpk : p.1 = kv.1
      · have hpkv : p = kv := eq_of_mem_of_nodup_keys hnd hp hmem hpk
        subst hpkv
        simp
      · simp [hpk]
    rw [List.foldl_cons, hstep]
    exact ih (fun q hq => h q (List.mem_cons_of_mem _ hq))

theorem updateTable_self {α : Type} [DecidableEq α] {t : Table α}
    (hnd : (keysOf t).Nodup) : updateTable t t = t :=
  updateTable_eq_self hnd (fun kv hkv => findEntry_eq_some_of_mem hnd hkv)

theorem updateTable_idem {α : Type} [DecidableEq α] {t d : Table α}
    (ht : (keysOf t).Nodup) (hd : (keysOf d).Nodup) :
    updateTable (updateTable t d) d = updateTable t d :=
  updateTable_eq_self (nodup_keysOf_updateTable ht)
    (fun kv hkv => findEntry_updateTable_of_mem hd hkv)

end Engine

namespace Engine

/-- Index of the last stored entry whose length is `≤ L` (the final value
of the source's `smaller_pos`; `none` models `-1`). -/
def lastLE {α : Type} (L : Nat) : List (Nat × Table α) → Option Nat
  | [] => none
  | e :: rest =>
    match lastLE L rest with
    | some j => some (j + 1)
    | none => if e.1 ≤ L then some 0 else none

theorem loadLoop_fst {α : Type} [DecidableEq α] (L : Nat)
    (st : List (Nat × Table α)) (rd : Table α) (sp : Option Nat) (pos : Nat) :
    (loadLoop L st rd sp pos).1.map Prod.fst = st.map Prod.fst := by
  induction st generalizing rd sp pos with
  | nil => rfl
  | cons e rest ih =>
    obtain ⟨l, tbl⟩ := e
    by_cases h1 : l < L
    · simp only [loadLoop, if_pos h1, List.map_cons]
      rw [ih]
    · by_cases h2 : L < l
      · simp only [loadLoop, if_neg h1, if_pos h2, List.map_cons]
        rw [ih]
      · simp only [loadLoop, if_neg h1, if_neg h2, List.map_cons]
        rw [ih]

theorem loadLoop_sp {α : Type} [DecidableEq α] (L : Nat)
    (st : List (Nat × Table α)) (rd : Table α) (sp : Option Nat) (pos : Nat) :
    (loadLoop L st rd sp pos).2.2 =
      match lastLE L st with
      | some j => some (pos + j)
      | none => sp := by
  induction st generalizing rd sp pos with
  | nil => rfl
  | cons e rest ih =>
    obtain ⟨l, tbl⟩ := e
    by_cases h1 : l < L
    · simp only [loadLoop, if_pos h1]
      rw [ih]
      cases hrec : lastLE L rest with
      | some j =>
        simp only [lastLE, hrec]
        exact congrArg some (by omega)
      | none => simp [lastLE, hrec, le_of_lt h1]
    · by_cases h2 : L < l
      · simp only [loadLoop, if_neg h1, if_pos h2]
        rw [ih]
        cases hrec : lastLE L rest with
        | some j =>
          simp only [lastLE, hrec]
          exact congrArg some (by omega)
        | none =>
          have hl : ¬l ≤ L := by omega
          simp [lastLE, hrec, hl]
      · have hl : l = L := by omega
        simp only [loadLoop, if_neg h1, if_neg h2]
        rw [ih]
        cases hrec : lastLE L rest with
        | some j =>
          simp only [lastLE, hrec]
          exact congrArg some (by omega)
        | none => simp [lastLE, hrec, hl]

theorem lastLE_eq_none_iff {α : Type} {L : Nat} {st : List (Nat × Table α)} :
    lastLE L st = none ↔ ∀ e ∈ st, L < e.1 := by
  induction st with
  | nil => simp [lastLE]
  | cons e rest ih =>
    constructor
    · intro h f hf
      rw [lastLE] at h
      rcases hrec : lastLE L rest with _ | j
      · rw [hrec] at h
        rcases List.mem_cons.mp hf with rfl | hf'
        · by_contra hle
          rw [if_pos (by omega)] at h
          cases h
        · exact ih.mp hrec f hf'
      · rw [hrec] at h
        cases h
    · intro h
      rw [lastLE, ih.mpr (fun f hf => h f (List.mem_cons_of_mem _ hf))]
      rw [if_neg (by have := h e (List.mem_cons_self _ _); omega)]

theorem lastLE_spec {α : Type} {L : Nat} {st : List (Nat × Table α)} {j : Nat}
    (h : lastLE L st = some j) :
    j < st.length ∧ ∀ e, st[j]? = some e → e.1 ≤ L := by
  induction st generalizing j with
  | nil => cases h
  | cons e rest ih =>
    rw [lastLE] at h
    rcases hrec : lastLE L rest with _ | j'
    · rw [hrec] at h
      by_cases hle : e.1 ≤ L
      · rw [if_pos hle] at h
        cases h
        exact ⟨by simp, fun f hf => by
          simp only [List.getElem?_cons_zero] at hf
          cases hf
          exact hle⟩
      · rw [if_neg hle] at h
        cases h
    · rw [hrec] at h
      cases h
      rcases ih hrec with ⟨hlen, hval⟩
      exact ⟨by simpa using Nat.succ_lt_succ hlen, fun f hf => by
        rw [List.getElem?_cons_succ] at hf
        exact hval f hf⟩

end Engine

namespace Engine

theorem set_getElem?_self {γ : Type} :
    ∀ (l : List γ) (n : Nat) (b : γ), l[n]? = some b → l.set n b = l
  | [], _, _, h => by cases h
  | a :: l, 0, b, h => by
    simp only [List.getElem?_cons_zero] at h
    cases h
    rfl
  | a :: l, n + 1, b, h => by
    simp only [List.getElem?_cons_succ] at h
    simp [set_getElem?_self l n b h]

theorem loadResult_sp_some {α : Type} [DecidableEq α]
    {st : List (Nat × Table α)} {rd : Table α} {L j : Nat}
    (hne : st ≠ []) (hsp : (loadLoop L st rd none 0).2.2 = some j) :
    loadResult st rd L
      = loadAtPos (loadLoop L st rd none 0).1 (loadLoop L st rd none 0).2.1 L j := by
  rcases st with _ | ⟨e0, st0⟩
  · exact absurd rfl hne
  · simp only [loadResult]
    rw [hsp]

theorem loadResult_sp_none {α : Type} [DecidableEq α]
    {st : List (Nat × Table α)} {rd : Table α} {L : Nat}
    (hne : st ≠ []) (hsp : (loadLoop L st rd none 0).2.2 = none) :
    loadResult st rd L
      = loadAtEnd (loadLoop L st rd none 0).1 (loadLoop L st rd none 0).2.1 L := by
  rcases st with _ | ⟨e0, st0⟩
  · exact absurd rfl hne
  · simp only [loadResult]
    rw [hsp]

theorem loadAtPos_eval {α : Type} [DecidableEq α]
    {st' : List (Nat × Table α)} {rd' : Table α} {L p lp : Nat} {tp : Table α}
    (hq : st'[p]? = some (lp, tp)) :
    loadAtPos st' rd' L p
      = (if lp < L then some (st'.insertIdx (p + 1) (L, rd'))
         else if lp = L then some (st'.set p (lp, updateTable tp rd'))
         else none) := by
  unfold loadAtPos
  rw [hq]

/-- C2 counterexample: a fresh Combiner accepts `L = 3`, but the
subsequent load of the strictly smaller length `2` raises `ValueError`
(`smaller_pos` stays `-1` and the final dispatch falls through to
`raise`), modelled as `none`. -/
theorem load_smaller_length_counterexample :
    loadResult ([] : List (Nat × Table Nat)) [([0,1,2],1)] 3 = some [(3, [([0,1,2],1)])] ∧
      loadResult [(3, [([0,1,2],1)])] [([5,6],1)] 2 = none := by
  constructor
  · rfl
  · decide

/-- C2 amended: a `load` call succeeds (and afterwards one stored table
exists per loaded length) when the Combiner is empty or some previously
loaded length is `≤` the new length; loading a length strictly smaller
than every previously loaded length instead raises `ValueError`. -/
theorem load_not_smaller_succeeds {α : Type} [DecidableEq α]
    (st : List (Nat × Table α)) (rd : Table α) (L : Nat)
    (h : st = [] ∨ ∃ e ∈ st, e.1 ≤ L) :
    ∃ st', loadResult st rd L = some st' ∧
      ∀ l, l ∈ st'.map Prod.fst ↔ (l ∈ st.map Prod.fst ∨ l = L) := by
  rcases st with _ | ⟨e0, st0⟩
  · exact ⟨[(L, rd)], rfl, by simp⟩
  · have hex : ∃ e ∈ e0 :: st0, e.1 ≤ L := by
      rcases h with h | h
      · cases h
      · exact h
    obtain ⟨j, hj⟩ : ∃ j, lastLE L (e0 :: st0) = some j := by
      rcases hlast : lastLE L (e0 :: st0) with _ | j
      · rcases hex with ⟨e, he, hle⟩
        have := lastLE_eq_none_iff.mp hlast e he
        omega
      · exact ⟨j, rfl⟩
    rcases lastLE_spec hj with ⟨hjlen, hjval⟩
    have hsp : (loadLoop L (e0 :: st0) rd none 0).2.2 = some j := by
      rw [loadLoop_sp, hj]
      show some (0 + j) = some j
      rw [Nat.zero_add]
    have hfst : (loadLoop L (e0 :: st0) rd none 0).1.map Prod.fst
        = (e0 :: st0).map Prod.fst := loadLoop_fst L (e0 :: st0) rd none 0
    have hlen : (loadLoop L (e0 :: st0) rd none 0).1.length = (e0 :: st0).length := by
      have := congrArg List.length hfst
      simpa using this
    obtain ⟨q, hq⟩ : ∃ q, (loadLoop L (e0 :: st0) rd none 0).1[j]? = some q := by
      rcases hq0 : (loadLoop L (e0 :: st0) rd none 0).1[j]? with _ | q
      · rw [List.getElem?_eq_none_iff] at hq0
        omega
      · exact ⟨q, rfl⟩
    have hqfst : ∃ e, (e0 :: st0)[j]? = some e ∧ e.1 = q.1 := by
      have h1 : ((loadLoop L (e0 :: st0) rd none 0).1.map Prod.fst)[j]? = some q.1 := by
        rw [List.getElem?_map, hq]
        rfl
      rw [hfst, List.getElem?_map] at h1
      rcases he : (e0 :: st0)[j]? with _ | e
      · rw [he] at h1
        cases h1
      · rw [he] at h1
        refine ⟨e, rfl, ?_⟩
        simpa using h1
    obtain ⟨e, he, hefst⟩ := hqfst
    have hqle : q.1 ≤ L := hefst ▸ hjval e he
    obtain ⟨lp, tp⟩ := q
    simp only at hqle hefst
    by_cases hlt : lp < L
    · refine ⟨(loadLoop L (e0 :: st0) rd none 0).1.insertIdx (j + 1)
        (L, (loadLoop L (e0 :: st0) rd none 0).2.1), ?_, ?_⟩
      · rw [loadResult_sp_some (List.cons_ne_nil _ _) hsp, loadAtPos_eval hq,
          if_pos hlt]
      · intro l
        constructor
        · intro hl
          rcases List.mem_map.mp hl with ⟨p, hp, rfl⟩
          rw [List.mem_insertIdx (by omega)] at hp
          rcases hp with rfl | hp
          · exact Or.inr rfl
          · exact Or.inl (hfst ▸ List.mem_map.mpr ⟨p, hp, rfl⟩)
        · rintro (hl | hlL)
          · rw [← hfst] at hl
            rcases List.mem_map.mp hl with ⟨p, hp, rfl⟩
            exact List.mem_map.mpr ⟨p, (List.mem_insertIdx (by omega)).mpr (Or.inr hp), rfl⟩
          · rw [hlL]
            exact List.mem_map.mpr
              ⟨(L, (loadLoop L (e0 :: st0) rd none 0).2.1),
                (List.mem_insertIdx (by omega)).mpr (Or.inl rfl), rfl⟩
    · have hleq : lp = L := by omega
      refine ⟨(loadLoop L (e0 :: st0) rd none 0).1.set j
        (lp, updateTable tp (loadLoop L (e0 :: st0) rd none 0).2.1), ?_, ?_⟩
      · rw [loadResult_sp_some (List.cons_ne_nil _ _) hsp, loadAtPos_eval hq,
          if_neg hlt, if_pos hleq]
      · intro l
        have hset : ((loadLoop L (e0 :: st0) rd none 0).1.set j
            (lp, updateTable tp (loadLoop L (e0 :: st0) rd none 0).2.1)).map Prod.fst
            = (loadLoop L (e0 :: st0) rd none 0).1.map Prod.fst := by
          rw [List.map_set]
          apply set_getElem?_self
          rw [List.getElem?_map, hq]
          rfl
        rw [hset, hfst]
        constructor
        · exact Or.inl
        · rintro (hl | hlL)
          · exact hl
          · rw [hlL, ← hleq, ← hefst]
            exact List.mem_map.mpr ⟨e, List.getElem?_mem he, rfl⟩

/-- Witness for C2 (amended): loading `L = 2` into a Combiner holding
only `L = 1` succeeds and stores exactly the lengths 1 and 2. -/
theorem load_not_smaller_succeeds_witness :
    ([(1, [([0],1)])] = ([] : List (Nat × Table Nat)) ∨
        ∃ e ∈ [(1, ([([0],1)] : Table Nat))], e.1 ≤ 2) ∧
      ∃ st', loadResult [(1, ([([0],1)] : Table Nat))] [([2,3],1)] 2 = some st' ∧
        ∀ l, l ∈ st'.map Prod.fst ↔
          (l ∈ [(1, ([([0],1)] : Table Nat))].map Prod.fst ∨ l = 2) :=
  ⟨Or.inr ⟨(1, [([0],1)]), by decide, by decide⟩,
    load_not_smaller_succeeds _ _ 2 (Or.inr ⟨(1, [([0],1)]), by decide, by decide⟩)⟩

end Engine

namespace Engine

/-- Effect of one `load` call on an already-stored entry of length `≤ L`:
strictly shorter tables lose the sub-slices of the incoming keys, the
equal-length table is untouched by the scan itself. -/
def pruneEntry {α : Type} [DecidableEq α] (rd : Table α) (L : Nat)
    (e : Nat × Table α) : Nat × Table α :=
  if e.1 < L then (e.1, prunePops e.2 (keysOf rd) e.1 (L - e.1)) else e

/-- Effect of the scan on the incoming dict: successively pruned against
every stored longer table. -/
def pruneDict {α : Type} [DecidableEq α] (rd : Table α) (L : Nat)
    (B : List (Nat × Table α)) : Table α :=
  B.foldl (fun r e => prunePops r (keysOf e.2) L (e.1 - L)) rd

theorem loadLoop_all_greater {α : Type} [DecidableEq α] (L : Nat)
    (B : List (Nat × Table α)) (rd : Table α) (sp : Option Nat) (pos : Nat)
    (hB : ∀ e ∈ B, L < e.1) :
    loadLoop L B rd sp pos = (B, pruneDict rd L B, sp) := by
  induction B generalizing rd sp pos with
  | nil => rfl
  | cons e B ih =>
    obtain ⟨l, tbl⟩ := e
    have hl : L < l := hB (l, tbl) (List.mem_cons_self _ _)
    have h1 : ¬l < L := by omega
    have hunfold : loadLoop L ((l, tbl) :: B) rd sp pos
        = ((l, tbl) :: (loadLoop L B (prunePops rd (keysOf tbl) L (l - L)) sp (pos + 1)).1,
            (loadLoop L B (prunePops rd (keysOf tbl) L (l - L)) sp (pos + 1)).2) := by
      simp only [loadLoop]
      rw [if_neg h1, if_pos hl]
    rw [hunfold, ih (prunePops rd (keysOf tbl) L (l - L)) sp (pos + 1)
      (fun f hf => hB f (List.mem_cons_of_mem _ hf))]
    rfl

theorem loadLoop_split {α : Type} [DecidableEq α] (L : Nat)
    (A B : List (Nat × Table α)) (rd : Table α) (sp : Option Nat) (pos : Nat)
    (hA : ∀ e ∈ A, e.1 ≤ L) (hB : ∀ e ∈ B, L < e.1) :
    loadLoop L (A ++ B) rd sp pos
      = (A.map (pruneEntry rd L) ++ B, pruneDict rd L B,
          if A.isEmpty then sp else some (pos + A.length - 1)) := by
  induction A generalizing sp pos with
  | nil =>
    rw [List.nil_append, loadLoop_all_greater L B rd sp pos hB]
    rfl
  | cons a A ih =>
    obtain ⟨l, tbl⟩ := a
    have hl : l ≤ L := hA (l, tbl) (List.mem_cons_self _ _)
    have hA' : ∀ e ∈ A, e.1 ≤ L := fun f hf => hA f (List.mem_cons_of_mem _ hf)
    have hrec := ih (some pos) (pos + 1) hA'
    by_cases h1 : l < L
    · have hunfold : loadLoop L ((l, tbl) :: A ++ B) rd sp pos
          = ((l, prunePops tbl (keysOf rd) l (L - l))
              :: (loadLoop L (A ++ B) rd (some pos) (pos + 1)).1,
              (loadLoop L (A ++ B) rd (some pos) (pos + 1)).2) := by
        simp only [List.cons_append, loadLoop, List.append_eq]
        rw [if_pos h1]
      rw [hunfold, hrec]
      have hhead : pruneEntry rd L (l, tbl)
          = (l, prunePops tbl (keysOf rd) l (L - l)) := by
        simp [pruneEntry, h1]
      rcases A with _ | ⟨a', A'⟩
      · simp only [List.map_cons, List.map_nil, hhead]
        refine Prod.ext rfl (Prod.ext rfl ?_)
        simp
      · simp only [List.map_cons, hhead]
        refine Prod.ext rfl (Prod.ext rfl ?_)
        simp only [List.isEmpty_cons, List.length_cons]
        exact congrArg some (by omega)
    · have h2 : ¬L < l := by omega
      have hunfold : loadLoop L ((l, tbl) :: A ++ B) rd sp pos
          = ((l, tbl) :: (loadLoop L (A ++ B) rd (some pos) (pos + 1)).1,
              (loadLoop L (A ++ B) rd (some pos) (pos + 1)).2) := by
        simp only [List.cons_append, loadLoop, List.append_eq]
        rw [if_neg h1, if_neg h2]
      rw [hunfold, hrec]
      have hhead : pruneEntry rd L (l, tbl) = (l, tbl) := by
        simp [pruneEntry, h1]
      rcases A with _ | ⟨a', A'⟩
      · simp only [List.map_cons, List.map_nil, hhead]
        refine Prod.ext rfl (Prod.ext rfl ?_)
        simp
      · simp only [List.map_cons, hhead]
        refine Prod.ext rfl (Prod.ext rfl ?_)
        simp only [List.isEmpty_cons, List.length_cons]
        exact congrArg some (by omega)

end Engine

namespace Engine

theorem sliceFree_mono {α : Type} [DecidableEq α] {a b a' b' : Nat × Table α}
    (h : sliceFree a b) (ha : a'.1 = a.1) (hb : b'.1 = b.1)
    (hka : keysOf a'.2 ⊆ keysOf a.2) (hkb : keysOf b'.2 ⊆ keysOf b.2) :
    sliceFree a' b' := by
  intro k hk i hi hmem
  exact h k (hkb hk) i (by omega) (hka (by rw [← ha]; exact hmem))

theorem keysOf_pruneEntry_subset {α : Type} [DecidableEq α]
    (rd : Table α) (L : Nat) (e : Nat × Table α) :
    keysOf (pruneEntry rd L e).2 ⊆ keysOf e.2 := by
  unfold pruneEntry
  by_cases h : e.1 < L
  · rw [if_pos h]
    exact keysOf_prunePops_subset
  · rw [if_neg h]
    exact fun _ hk => hk

theorem pruneEntry_fst {α : Type} [DecidableEq α]
    (rd : Table α) (L : Nat) (e : Nat × Table α) :
    (pruneEntry rd L e).1 = e.1 := by
  unfold pruneEntry
  by_cases h : e.1 < L
  · rw [if_pos h]
  · rw [if_neg h]

theorem sliceFree_pruneEntry_new {α : Type} [DecidableEq α]
    (a : Nat × Table α) (rd rd' : Table α) (L : Nat)
    (ha : a.1 < L) (hsub : keysOf rd' ⊆ keysOf rd) :
    sliceFree (pruneEntry rd L a) (L, rd') := by
  intro k hk i hi hmem
  rw [pruneEntry_fst] at hi hmem
  unfold pruneEntry at hmem
  rw [if_pos ha] at hmem
  rcases mem_keysOf_prunePops.mp hmem with ⟨_, hall⟩
  exact hall k (hsub hk) i hi rfl

theorem keysOf_pruneDict_subset {α : Type} [DecidableEq α]
    (rd : Table α) (L : Nat) (B : List (Nat × Table α)) :
    keysOf (pruneDict rd L B) ⊆ keysOf rd := by
  induction B generalizing rd with
  | nil => exact fun _ h => h
  | cons e B ih =>
    have hstep : pruneDict rd L (e :: B)
        = pruneDict (prunePops rd (keysOf e.2) L (e.1 - L)) L B := rfl
    rw [hstep]
    exact fun k hk => keysOf_prunePops_subset (ih _ hk)

theorem pruneDict_sliceFree {α : Type} [DecidableEq α]
    (rd : Table α) (L : Nat) (B : List (Nat × Table α)) :
    ∀ b ∈ B, sliceFree (L, pruneDict rd L B) b := by
  induction B generalizing rd with
  | nil => intro b hb; cases hb
  | cons e B ih =>
    have hstep : pruneDict rd L (e :: B)
        = pruneDict (prunePops rd (keysOf e.2) L (e.1 - L)) L B := rfl
    intro b hb
    rcases List.mem_cons.mp hb with rfl | hb'
    · intro k hk i hi hmem
      rw [hstep] at hmem
      have hmem' : sliceAt k i L ∈ keysOf (prunePops rd (keysOf b.2) L (b.1 - L)) :=
        keysOf_pruneDict_subset _ _ _ hmem
      rcases mem_keysOf_prunePops.mp hmem' with ⟨_, hall⟩
      exact hall k hk i hi rfl
    · rw [hstep]
      exact ih _ b hb'

theorem nodup_pruneDict {α : Type} [DecidableEq α]
    {rd : Table α} {L : Nat} {B : List (Nat × Table α)}
    (h : (keysOf rd).Nodup) : (keysOf (pruneDict rd L B)).Nodup := by
  induction B generalizing rd with
  | nil => exact h
  | cons e B ih => exact ih (nodup_keysOf_prunePops h)

theorem nodup_pruneEntry {α : Type} [DecidableEq α]
    {rd : Table α} {L : Nat} {e : Nat × Table α}
    (h : (keysOf e.2).Nodup) : (keysOf (pruneEntry rd L e).2).Nodup := by
  unfold pruneEntry
  by_cases hc : e.1 < L
  · rw [if_pos hc]
    exact nodup_keysOf_prunePops h
  · rw [if_neg hc]
    exact h

theorem dropWhile_gt {α : Type} (L : Nat) (st : List (Nat × Table α))
    (hs : st.Pairwise (fun a b : Nat × Table α => a.1 < b.1)) :
    ∀ e ∈ st.dropWhile (fun e => e.1 ≤ L), L < e.1 := by
  induction st with
  | nil => intro e he; cases he
  | cons a st ih =>
    rw [List.pairwise_cons] at hs
    by_cases ha : a.1 ≤ L
    · rw [List.dropWhile_cons_of_pos (by simpa using ha)]
      exact ih hs.2
    · rw [List.dropWhile_cons_of_neg (by simpa using ha)]
      intro e he
      rcases List.mem_cons.mp he with rfl | he'
      · omega
      · have := hs.1 e he'
        omega

end Engine

namespace Engine

theorem insertIdx_append_length {γ : Type} :
    ∀ (xs ys : List γ) (v : γ), (xs ++ ys).insertIdx xs.length v = xs ++ v :: ys
  | [], ys, v => rfl
  | x :: xs, ys, v => by
    simp only [List.cons_append, List.length_cons, List.insertIdx_succ_cons,
      insertIdx_append_length xs ys v]

theorem set_append_length {γ : Type} :
    ∀ (xs ys : List γ) (v : γ), (xs ++ ys).set xs.length v = xs ++ ys.set 0 v
  | [], ys, v => rfl
  | x :: xs, ys, v => by
    simp only [List.cons_append, List.length_cons, List.set_cons_succ,
      set_append_length xs ys v]

theorem combinerInv_insert {α : Type} [DecidableEq α]
    (A B : List (Nat × Table α)) (rd : Table α) (L : Nat)
    (hpair : (A ++ B).Pairwise (fun a b => a.1 < b.1 ∧ sliceFree a b))
    (hnd : ∀ e ∈ A ++ B, (keysOf e.2).Nodup)
    (hrd : (keysOf rd).Nodup)
    (hA : ∀ e ∈ A, e.1 < L) (hB : ∀ e ∈ B, L < e.1) :
    CombinerInv (A.map (pruneEntry rd L) ++ (L, pruneDict rd L B) :: B) := by
  obtain ⟨hpA, hpB, hpAB⟩ := List.pairwise_append.mp hpair
  constructor
  · rw [List.pairwise_append]
    refine ⟨?_, ?_, ?_⟩
    · rw [List.pairwise_map]
      refine hpA.imp ?_
      intro a b hab
      refine ⟨by rw [pruneEntry_fst, pruneEntry_fst]; exact hab.1, ?_⟩
      exact sliceFree_mono hab.2 (pruneEntry_fst _ _ _) (pruneEntry_fst _ _ _)
        (keysOf_pruneEntry_subset _ _ _) (keysOf_pruneEntry_subset _ _ _)
    · rw [List.pairwise_cons]
      refine ⟨?_, hpB⟩
      intro b hb
      exact ⟨hB b hb, pruneDict_sliceFree rd L B b hb⟩
    · intro a' ha' y hy
      rcases List.mem_map.mp ha' with ⟨a, ha, rfl⟩
      rcases List.mem_cons.mp hy with rfl | hyB
      · refine ⟨by rw [pruneEntry_fst]; exact hA a ha, ?_⟩
        exact sliceFree_pruneEntry_new a rd _ L (hA a ha)
          (keysOf_pruneDict_subset rd L B)
      · have hab := hpAB a ha y hyB
        exact ⟨by rw [pruneEntry_fst]; exact hab.1,
          sliceFree_mono hab.2 (pruneEntry_fst _ _ _) rfl
            (keysOf_pruneEntry_subset _ _ _) (fun _ hk => hk)⟩
  · intro e he
    rcases List.mem_append.mp he with heA | heC
    · rcases List.mem_map.mp heA with ⟨a, ha, rfl⟩
      exact nodup_pruneEntry (hnd a (List.mem_append.mpr (Or.inl ha)))
    · rcases List.mem_cons.mp heC with rfl | heB
      · exact nodup_pruneDict hrd
      · exact hnd e (List.mem_append.mpr (Or.inr heB))

theorem combinerInv_update {α : Type} [DecidableEq α]
    (X B : List (Nat × Table α)) (tL rd : Table α) (L : Nat)
    (hpair : (X ++ (L, tL) :: B).Pairwise (fun a b => a.1 < b.1 ∧ sliceFree a b))
    (hnd : ∀ e ∈ X ++ (L, tL) :: B, (keysOf e.2).Nodup)
    (hrd : (keysOf rd).Nodup)
    (hX : ∀ e ∈ X, e.1 < L) (hB : ∀ e ∈ B, L < e.1) :
    CombinerInv (X.map (pruneEntry rd L)
      ++ (L, updateTable tL (pruneDict rd L B)) :: B) := by
  obtain ⟨hpX, hpLB, hpXL⟩ := List.pairwise_append.mp hpair
  rw [List.pairwise_cons] at hpLB
  constructor
  · rw [List.pairwise_append]
    refine ⟨?_, ?_, ?_⟩
    · rw [List.pairwise_map]
      refine hpX.imp ?_
      intro a b hab
      refine ⟨by rw [pruneEntry_fst, pruneEntry_fst]; exact hab.1, ?_⟩
      exact sliceFree_mono hab.2 (pruneEntry_fst _ _ _) (pruneEntry_fst _ _ _)
        (keysOf_pruneEntry_subset _ _ _) (keysOf_pruneEntry_subset _ _ _)
    · rw [List.pairwise_cons]
      refine ⟨?_, hpLB.2⟩
      intro b hb
      refine ⟨hB b hb, ?_⟩
      intro k hk i hi hmem
      rcases mem_keysOf_updateTable.mp hmem with hmem1 | hmem2
      · exact (hpLB.1 b hb).2 k hk i hi hmem1
      · exact pruneDict_sliceFree rd L B b hb k hk i hi hmem2
    · intro x' hx' y hy
      rcases List.mem_map.mp hx' with ⟨x, hx, rfl⟩
      rcases List.mem_cons.mp hy with rfl | hyB
      · refine ⟨by rw [pruneEntry_fst]; exact hX x hx, ?_⟩
        intro k hk i hi hmem
        rw [pruneEntry_fst] at hi hmem
        rcases mem_keysOf_updateTable.mp hk with hk1 | hk2
        · have hxL := hpXL x hx (L, tL) (List.mem_cons_self _ _)
          exact hxL.2 k hk1 i hi (keysOf_pruneEntry_subset rd L x hmem)
        · have hmem' := hmem
          unfold pruneEntry at hmem'
          rw [if_pos (hX x hx)] at hmem'
          rcases mem_keysOf_prunePops.mp hmem' with ⟨_, hall⟩
          exact hall k (keysOf_pruneDict_subset rd L B hk2) i hi rfl
      · have hxy := hpXL x hx y (List.mem_cons_of_mem _ hyB)
        exact ⟨by rw [pruneEntry_fst]; exact hxy.1,
          sliceFree_mono hxy.2 (pruneEntry_fst _ _ _) rfl
            (keysOf_pruneEntry_subset _ _ _) (fun _ hk => hk)⟩
  · intro e he
    rcases List.mem_append.mp he with heX | heC
    · rcases List.mem_map.mp heX with ⟨x, hx, rfl⟩
      exact nodup_pruneEntry (hnd x (List.mem_append.mpr (Or.inl hx)))
    · rcases List.mem_cons.mp heC with rfl | heB
      · exact nodup_keysOf_updateTable
          (hnd (L, tL) (List.mem_append.mpr (Or.inr (List.mem_cons_self _ _))))
      · exact hnd e (List.mem_append.mpr (Or.inr (List.mem_cons_of_mem _ heB)))

end Engine

namespace Engine

theorem loadAtEnd_eval {α : Type} [DecidableEq α]
    {st' : List (Nat × Table α)} {rd' : Table α} {L llast : Nat} {tl : Table α}
    (hlast : st'.getLast? = some (llast, tl)) :
    loadAtEnd st' rd' L = if llast < L then some ((L, rd') :: st') else none := by
  unfold loadAtEnd
  rw [hlast]

theorem loadResult_preserves_inv {α : Type} [DecidableEq α]
    {st st' : List (Nat × Table α)} {rd : Table α} {L : Nat}
    (hinv : CombinerInv st) (hrd : (keysOf rd).Nodup)
    (h : loadResult st rd L = some st') : CombinerInv st' := by
  obtain ⟨hpair, hnd⟩ := hinv
  rcases st with _ | ⟨e0, st0⟩
  · simp only [loadResult] at h
    cases h
    refine ⟨List.pairwise_singleton _ _, ?_⟩
    intro e he
    rcases List.mem_singleton.mp he with rfl
    exact hrd
  · obtain ⟨A, B, hsplit, hA, hB⟩ :
        ∃ A B, A ++ B = e0 :: st0 ∧ (∀ e ∈ A, e.1 ≤ L) ∧ (∀ e ∈ B, L < e.1) := by
      refine ⟨(e0 :: st0).takeWhile (fun e => e.1 ≤ L),
        (e0 :: st0).dropWhile (fun e => e.1 ≤ L),
        List.takeWhile_append_dropWhile _ _, ?_, ?_⟩
      · intro e he
        simpa using List.mem_takeWhile_imp he
      · exact dropWhile_gt L _ (hpair.imp (fun hab => hab.1))
    rw [← hsplit] at h hpair hnd
    have hloop := loadLoop_split L A B rd none 0 hA hB
    rcases A with _ | ⟨a0, A0⟩
    · rw [List.nil_append] at h hsplit hloop
      have hBne : B ≠ [] := by
        intro hBnil
        rw [hBnil] at hsplit
        cases hsplit
      have hsp : (loadLoop L B rd none 0).2.2 = none := by
        rw [hloop]
        simp
      rw [loadResult_sp_none hBne hsp] at h
      have h1 : (loadLoop L B rd none 0).1 = B := by
        rw [hloop]
        simp
      rw [h1] at h
      obtain ⟨⟨llast, tl⟩, hlast⟩ : ∃ e, B.getLast? = some e := by
        rcases hBl : B.getLast? with _ | e
        · exact absurd (List.getLast?_isSome.mpr hBne) (by rw [hBl]; simp)
        · exact ⟨e, rfl⟩
      rw [loadAtEnd_eval hlast] at h
      have hmem : (llast, tl) ∈ B := by
        rw [List.getLast?_eq_getElem?] at hlast
        exact List.getElem?_mem hlast
      rw [if_neg (by have := hB _ hmem; simp at this ⊢; omega)] at h
      cases h
    · have hAne : (a0 :: A0) ≠ [] := List.cons_ne_nil _ _
      have hne : (a0 :: A0) ++ B ≠ [] := by simp
      have hsp : (loadLoop L ((a0 :: A0) ++ B) rd none 0).2.2
          = some ((a0 :: A0).length - 1) := by
        rw [hloop]
        simp
      rcases hgl : (a0 :: A0).getLast hAne with ⟨l1, t1⟩
      have hglmem : (l1, t1) ∈ a0 :: A0 := hgl ▸ List.getLast_mem hAne
      have hl1 : l1 ≤ L := hA _ hglmem
      have hq : (loadLoop L ((a0 :: A0) ++ B) rd none 0).1[(a0 :: A0).length - 1]?
          = some (pruneEntry rd L (l1, t1)) := by
        rw [hloop]
        rw [List.getElem?_append]
        rw [if_pos (by simp)]
        rw [List.getElem?_map]
        have hgetl : (a0 :: A0)[(a0 :: A0).length - 1]? = some (l1, t1) := by
          rw [← List.getLast?_eq_getElem?, List.getLast?_eq_getLast _ hAne, hgl]
        rw [hgetl]
        rfl
      have hdl := List.dropLast_append_getLast hAne
      rw [hgl] at hdl
      by_cases hlt : l1 < L
      · have hpe : pruneEntry rd L (l1, t1)
            = (l1, prunePops t1 (keysOf rd) l1 (L - l1)) := by
          unfold pruneEntry
          rw [if_pos hlt]
        rw [hpe] at hq
        rw [loadResult_sp_some hne hsp, loadAtPos_eval hq, if_pos hlt] at h
        cases h
        rw [hloop]
        have hins : (((a0 :: A0).map (pruneEntry rd L) ++ B, pruneDict rd L B,
            if (a0 :: A0).isEmpty then (none : Option Nat)
            else some (0 + (a0 :: A0).length - 1)).1).insertIdx
              (((a0 :: A0).length - 1) + 1)
              (L, ((a0 :: A0).map (pruneEntry rd L) ++ B, pruneDict rd L B,
                if (a0 :: A0).isEmpty then (none : Option Nat)
                else some (0 + (a0 :: A0).length - 1)).2.1)
            = (a0 :: A0).map (pruneEntry rd L) ++ (L, pruneDict rd L B) :: B := by
          show ((a0 :: A0).map (pruneEntry rd L) ++ B).insertIdx
            (((a0 :: A0).length - 1) + 1) (L, pruneDict rd L B) = _
          have hidx : ((a0 :: A0).length - 1) + 1
              = ((a0 :: A0).map (pruneEntry rd L)).length := by
            simp
          rw [hidx, insertIdx_append_length]
        rw [hins]
        have hAlt : ∀ e ∈ a0 :: A0, e.1 < L := by
          intro e he
          rw [← hdl] at he
          rcases List.mem_append.mp he with heX | heL
          · have hps : ((a0 :: A0).dropLast ++ [(l1, t1)]).Pairwise
                (fun a b : Nat × Table α => a.1 < b.1) := by
              rw [hdl]
              exact ((List.pairwise_append.mp hpair).1).imp (fun hab => hab.1)
            have := (List.pairwise_append.mp hps).2.2 e heX (l1, t1)
              (List.mem_singleton.mpr rfl)
            omega
          · rcases List.mem_singleton.mp heL with rfl
            exact hlt
        exact combinerInv_insert _ B rd L hpair hnd hrd hAlt hB
      · have hleq : l1 = L := by omega
        subst hleq
        have hpe : pruneEntry rd l1 (l1, t1) = (l1, t1) := by
          unfold pruneEntry
          rw [if_neg hlt]
        rw [hpe] at hq
        rw [loadResult_sp_some hne hsp, loadAtPos_eval hq, if_neg hlt,
          if_pos rfl] at h
        cases h
        rw [hloop]
        have hmap : (a0 :: A0).map (pruneEntry rd l1)
            = (a0 :: A0).dropLast.map (pruneEntry rd l1) ++ [(l1, t1)] := by
          conv_lhs => rw [← hdl]
          rw [List.map_append]
          simp [hpe]
        have hset : (((a0 :: A0).map (pruneEntry rd l1) ++ B, pruneDict rd l1 B,
            if (a0 :: A0).isEmpty then (none : Option Nat)
            else some (0 + (a0 :: A0).length - 1)).1).set ((a0 :: A0).length - 1)
              (l1, updateTable t1 (((a0 :: A0).map (pruneEntry rd l1) ++ B,
                pruneDict rd l1 B,
                if (a0 :: A0).isEmpty then (none : Option Nat)
                else some (0 + (a0 :: A0).length - 1)).2.1))
            = (a0 :: A0).dropLast.map (pruneEntry rd l1)
              ++ (l1, updateTable t1 (pruneDict rd l1 B)) :: B := by
          show ((a0 :: A0).map (pruneEntry rd l1) ++ B).set ((a0 :: A0).length - 1)
            (l1, updateTable t1 (pruneDict rd l1 B)) = _
          have hsetlen : (a0 :: A0).length - 1
              = ((a0 :: A0).dropLast.map (pruneEntry rd l1)).length := by
            simp [List.length_dropLast]
          rw [hmap, List.append_assoc, hsetlen, set_append_length]
          rfl
        rw [hset]
        have hpair' : ((a0 :: A0).dropLast ++ (l1, t1) :: B).Pairwise
            (fun a b => a.1 < b.1 ∧ sliceFree a b) := by
          have hshape : (a0 :: A0).dropLast ++ (l1, t1) :: B
              = ((a0 :: A0).dropLast ++ [(l1, t1)]) ++ B := by
            simp
          rw [hshape, hdl]
          exact hpair
        have hnd' : ∀ e ∈ (a0 :: A0).dropLast ++ (l1, t1) :: B,
            (keysOf e.2).Nodup := by
          intro e he
          apply hnd
          have hshape : (a0 :: A0).dropLast ++ (l1, t1) :: B
              = ((a0 :: A0).dropLast ++ [(l1, t1)]) ++ B := by
            simp
          rw [hshape, hdl] at he
          exact he
        have hXlt : ∀ e ∈ (a0 :: A0).dropLast, e.1 < l1 := by
          intro e he
          have hps : ((a0 :: A0).dropLast ++ [(l1, t1)]).Pairwise
              (fun a b : Nat × Table α => a.1 < b.1) := by
            rw [hdl]
            exact ((List.pairwise_append.mp hpair).1).imp (fun hab => hab.1)
          exact (List.pairwise_append.mp hps).2.2 e he (l1, t1)
            (List.mem_singleton.mpr rfl)
        exact combinerInv_update _ B t1 rd l1 hpair' hnd' hrd hXlt hB

end Engine

namespace Engine

theorem combinerInv_of_reachable {α : Type} [DecidableEq α]
    {st : List (Nat × Table α)} (h : ReachableCombiner st) : CombinerInv st := by
  induction h with
  | base => exact ⟨List.Pairwise.nil, by intro e he; cases he⟩
  | step _ hnd hload ih => exact loadResult_preserves_inv ih hnd hload

/-- C3 counterexample: load `{[a]: 1}` at `L = 1`, then `{[b,a]: 1}` at
`L = 2` (tokens `a = 0`, `b = 1`).  The signature `[a]` stays in the
first table even though it is the contiguous sub-slice of `[b,a]` at the
final offset `|L2 - L1| = 1`: the source prunes offsets `range(L2 - L1)`
only, which excludes the suffix offset. -/
theorem combiner_suffix_slice_counterexample :
    loadResult ([] : List (Nat × Table Nat)) [([0],1)] 1 = some [(1, [([0],1)])] ∧
      loadResult [(1, ([([0],1)] : Table Nat))] [([1,0],1)] 2
        = some [(1, [([0],1)]), (2, [([1,0],1)])] ∧
      [0] ∈ keysOf ([([0],1)] : Table Nat) ∧
      [1,0] ∈ keysOf ([([1,0],1)] : Table Nat) ∧
      sliceAt [1,0] 1 1 = [0] := by
  refine ⟨rfl, by decide, by decide, by decide, by decide⟩

/-- C3 amended: in every reachable Combiner state, stored lengths
strictly increase along the stored order, and for every earlier
(shorter, length `L1`) table and later (longer, length `L2`) table no
signature remaining in the earlier table is a contiguous sub-slice of a
signature of the later table at any offset `0 ≤ o < L2 - L1`; the
sub-slice at the final (suffix) offset `L2 - L1` may survive. -/
theorem combiner_subslice_invariant {α : Type} [DecidableEq α]
    {st : List (Nat × Table α)} (hre : ReachableCombiner st) :
    ∀ (i j : Nat) (hi : i < st.length) (hj : j < st.length), i < j →
      st[i].1 < st[j].1 ∧
      ∀ k ∈ keysOf st[j].2, ∀ o < st[j].1 - st[i].1,
        sliceAt k o st[i].1 ∉ keysOf st[i].2 := by
  have hinv := combinerInv_of_reachable hre
  intro i j hi hj hij
  have hp := List.pairwise_iff_getElem.mp hinv.1 i j hi hj hij
  exact ⟨hp.1, hp.2⟩

/-- Witness for C3 (amended), on the reachable two-table state built by
loading `{[0]: 1}` at length 1 and then `{[1,0]: 1}` at length 2. -/
theorem combiner_subslice_invariant_witness :
    [(1, ([([0],1)] : Table Nat)), (2, [([1,0],1)])][0].1
      < [(1, ([([0],1)] : Table Nat)), (2, [([1,0],1)])][1].1 ∧
    ∀ k ∈ keysOf [(1, ([([0],1)] : Table Nat)), (2, [([1,0],1)])][1].2,
      ∀ o < [(1, ([([0],1)] : Table Nat)), (2, [([1,0],1)])][1].1
          - [(1, ([([0],1)] : Table Nat)), (2, [([1,0],1)])][0].1,
        sliceAt k o [(1, ([([0],1)] : Table Nat)), (2, [([1,0],1)])][0].1
          ∉ keysOf [(1, ([([0],1)] : Table Nat)), (2, [([1,0],1)])][0].2 :=
  combiner_subslice_invariant
    (@ReachableCombiner.step Nat _ [(1, [([0],1)])]
      [(1, [([0],1)]), (2, [([1,0],1)])] [([1,0],1)] 2
      (@ReachableCombiner.step Nat _ [] [(1, [([0],1)])] [([0],1)] 1
        ReachableCombiner.base (by decide) (by decide))
      (by decide) (by decide))
    0 1 (by decide) (by decide) (by decide)

end Engine

namespace Engine

theorem pruneEntry_idem {α : Type} [DecidableEq α]
    (rd : Table α) (L : Nat) (e : Nat × Table α) :
    pruneEntry rd L (pruneEntry rd L e) = pruneEntry rd L e := by
  unfold pruneEntry
  by_cases h : e.1 < L
  · rw [if_pos h]
    show (if e.1 < L then _ else _) = _
    rw [if_pos h, prunePops_idem]
  · rw [if_neg h, if_neg h]

theorem loadResult_fixed {α : Type} [DecidableEq α]
    (P B : List (Nat × Table α)) (T rd : Table α) (L : Nat)
    (hP : ∀ e ∈ P, e.1 < L) (hB : ∀ e ∈ B, L < e.1)
    (hPfix : ∀ e ∈ P, pruneEntry rd L e = e)
    (hTfix : updateTable T (pruneDict rd L B) = T) :
    loadResult (P ++ (L, T) :: B) rd L = some (P ++ (L, T) :: B) := by
  have hA : ∀ e ∈ P ++ [(L, T)], e.1 ≤ L := by
    intro e he
    rcases List.mem_append.mp he with heP | heL
    · exact le_of_lt (hP e heP)
    · rcases List.mem_singleton.mp heL with rfl
      exact le_refl L
  have hassoc : (P ++ [(L, T)]) ++ B = P ++ (L, T) :: B := by simp
  have hloop := loadLoop_split L (P ++ [(L, T)]) B rd none 0 hA hB
  rw [hassoc] at hloop
  have hne : P ++ (L, T) :: B ≠ [] := by
    rcases P with _ | ⟨p0, P0⟩ <;> exact List.cons_ne_nil _ _
  have hmapfix : (P ++ [(L, T)]).map (pruneEntry rd L) = P ++ [(L, T)] := by
    rw [List.map_append]
    congr 1
    · have hid : P.map (pruneEntry rd L) = P.map id :=
        List.map_congr_left (fun a ha => by rw [hPfix a ha]; rfl)
      rw [hid, List.map_id]
    · simp [pruneEntry]
  have hsp : (loadLoop L (P ++ (L, T) :: B) rd none 0).2.2 = some P.length := by
    rw [hloop]
    have hemp : (P ++ [(L, T)]).isEmpty = false := by
      rcases P with _ | ⟨p0, P0⟩ <;> rfl
    simp [hemp]
  have hget : (P ++ (L, T) :: B)[P.length]? = some (L, T) := by
    rw [List.getElem?_append, if_neg (lt_irrefl _)]
    simp
  have hst1 : (loadLoop L (P ++ (L, T) :: B) rd none 0).1 = P ++ (L, T) :: B := by
    rw [hloop]
    show (P ++ [(L, T)]).map (pruneEntry rd L) ++ B = _
    rw [hmapfix, hassoc]
  have hrd1 : (loadLoop L (P ++ (L, T) :: B) rd none 0).2.1 = pruneDict rd L B := by
    rw [hloop]
  have hq : (loadLoop L (P ++ (L, T) :: B) rd none 0).1[P.length]? = some (L, T) := by
    rw [hst1]
    exact hget
  rw [loadResult_sp_some hne hsp, loadAtPos_eval hq, if_neg (lt_irrefl L),
    if_pos rfl, hst1, hrd1, hTfix, set_getElem?_self _ _ _ hget]

theorem loadResult_shape {α : Type} [DecidableEq α]
    {st st₁ : List (Nat × Table α)} {rd : Table α} {L : Nat}
    (hinv : CombinerInv st) (hrd : (keysOf rd).Nodup)
    (h : loadResult st rd L = some st₁) :
    ∃ P B T, st₁ = P ++ (L, T) :: B ∧
      (∀ e ∈ P, e.1 < L) ∧ (∀ e ∈ B, L < e.1) ∧
      (∀ e ∈ P, pruneEntry rd L e = e) ∧
      updateTable T (pruneDict rd L B) = T := by
  obtain ⟨hpair, hnd⟩ := hinv
  rcases st with _ | ⟨e0, st0⟩
  · simp only [loadResult] at h
    cases h
    refine ⟨[], [], rd, rfl, ?_, ?_, ?_, ?_⟩
    · intro e he; cases he
    · intro e he; cases he
    · intro e he; cases he
    · exact updateTable_self hrd
  · obtain ⟨A, B, hsplit, hA, hB⟩ :
        ∃ A B, A ++ B = e0 :: st0 ∧ (∀ e ∈ A, e.1 ≤ L) ∧ (∀ e ∈ B, L < e.1) := by
      refine ⟨(e0 :: st0).takeWhile (fun e => e.1 ≤ L),
        (e0 :: st0).dropWhile (fun e => e.1 ≤ L),
        List.takeWhile_append_dropWhile _ _, ?_, ?_⟩
      · intro e he
        simpa using List.mem_takeWhile_imp he
      · exact dropWhile_gt L _ (hpair.imp (fun hab => hab.1))
    rw [← hsplit] at h hpair hnd
    have hloop := loadLoop_split L A B rd none 0 hA hB
    rcases A with _ | ⟨a0, A0⟩
    · rw [List.nil_append] at h hsplit hloop
      have hBne : B ≠ [] := by
        intro hBnil
        rw [hBnil] at hsplit
        cases hsplit
      have hsp : (loadLoop L B rd none 0).2.2 = none := by
        rw [hloop]
        simp
      rw [loadResult_sp_none hBne hsp] at h
      have h1 : (loadLoop L B rd none 0).1 = B := by
        rw [hloop]
        simp
      rw [h1] at h
      obtain ⟨⟨llast, tl⟩, hlast⟩ : ∃ e, B.getLast? = some e := by
        rcases hBl : B.getLast? with _ | e
        · exact absurd (List.getLast?_isSome.mpr hBne) (by rw [hBl]; simp)
        · exact ⟨e, rfl⟩
      rw [loadAtEnd_eval hlast] at h
      have hmem : (llast, tl) ∈ B := by
        rw [List.getLast?_eq_getElem?] at hlast
        exact List.getElem?_mem hlast
      rw [if_neg (by have := hB _ hmem; simp at this ⊢; omega)] at h
      cases h
    · have hAne : (a0 :: A0) ≠ [] := List.cons_ne_nil _ _
      have hne : (a0 :: A0) ++ B ≠ [] := by simp
      have hsp : (loadLoop L ((a0 :: A0) ++ B) rd none 0).2.2
          = some ((a0 :: A0).length - 1) := by
        rw [hloop]
        simp
      rcases hgl : (a0 :: A0).getLast hAne with ⟨l1, t1⟩
      have hglmem : (l1, t1) ∈ a0 :: A0 := hgl ▸ List.getLast_mem hAne
      have hl1 : l1 ≤ L := hA _ hglmem
      have hq : (loadLoop L ((a0 :: A0) ++ B) rd none 0).1[(a0 :: A0).length - 1]?
          = some (pruneEntry rd L (l1, t1)) := by
        rw [hloop]
        rw [List.getElem?_append]
        rw [if_pos (by simp)]
        rw [List.getElem?_map]
        have hgetl : (a0 :: A0)[(a0 :: A0).length - 1]? = some (l1, t1) := by
          rw [← List.getLast?_eq_getElem?, List.getLast?_eq_getLast _ hAne, hgl]
        rw [hgetl]
        rfl
      have hdl := List.dropLast_append_getLast hAne
      rw [hgl] at hdl
      by_cases hlt : l1 < L
      · have hpe : pruneEntry rd L (l1, t1)
            = (l1, prunePops t1 (keysOf rd) l1 (L - l1)) := by
          unfold pruneEntry
          rw [if_pos hlt]
        rw [hpe] at hq
        rw [loadResult_sp_some hne hsp, loadAtPos_eval hq, if_pos hlt] at h
        cases h
        have hAlt : ∀ e ∈ a0 :: A0, e.1 < L := by
          intro e he
          rw [← hdl] at he
          rcases List.mem_append.mp he with heX | heL
          · have hps : ((a0 :: A0).dropLast ++ [(l1, t1)]).Pairwise
                (fun a b : Nat × Table α => a.1 < b.1) := by
              rw [hdl]
              exact ((List.pairwise_append.mp hpair).1).imp (fun hab => hab.1)
            have := (List.pairwise_append.mp hps).2.2 e heX (l1, t1)
              (List.mem_singleton.mpr rfl)
            omega
          · rcases List.mem_singleton.mp heL with rfl
            exact hlt
        refine ⟨(a0 :: A0).map (pruneEntry rd L), B, pruneDict rd L B, ?_, ?_, hB, ?_, ?_⟩
        · rw [hloop]
          show (((a0 :: A0).map (pruneEntry rd L) ++ B).insertIdx
            (((a0 :: A0).length - 1) + 1) (L, pruneDict rd L B)) = _
          have hidx : ((a0 :: A0).length - 1) + 1
              = ((a0 :: A0).map (pruneEntry rd L)).length := by
            simp
          rw [hidx, insertIdx_append_length]
        · intro e he
          rcases List.mem_map.mp he with ⟨a, ha, rfl⟩
          rw [pruneEntry_fst]
          exact hAlt a ha
        · intro e he
          rcases List.mem_map.mp he with ⟨a, ha, rfl⟩
          exact pruneEntry_idem rd L a
        · exact updateTable_self (nodup_pruneDict hrd)
      · have hleq : l1 = L := by omega
        subst hleq
        have hpe : pruneEntry rd l1 (l1, t1) = (l1, t1) := by
          unfold pruneEntry
          rw [if_neg hlt]
        rw [hpe] at hq
        rw [loadResult_sp_some hne hsp, loadAtPos_eval hq, if_neg hlt,
          if_pos rfl] at h
        cases h
        have hmap : (a0 :: A0).map (pruneEntry rd l1)
            = (a0 :: A0).dropLast.map (pruneEntry rd l1) ++ [(l1, t1)] := by
          conv_lhs => rw [← hdl]
          rw [List.map_append]
          simp [hpe]
        have hXlt : ∀ e ∈ (a0 :: A0).dropLast, e.1 < l1 := by
          intro e he
          have hps : ((a0 :: A0).dropLast ++ [(l1, t1)]).Pairwise
              (fun a b : Nat × Table α => a.1 < b.1) := by
            rw [hdl]
            exact ((List.pairwise_append.mp hpair).1).imp (fun hab => hab.1)
          exact (List.pairwise_append.mp hps).2.2 e he (l1, t1)
            (List.mem_singleton.mpr rfl)
        refine ⟨(a0 :: A0).dropLast.map (pruneEntry rd l1), B,
          updateTable t1 (pruneDict rd l1 B), ?_, ?_, hB, ?_, ?_⟩
        · rw [hloop]
          show (((a0 :: A0).map (pruneEntry rd l1) ++ B).set ((a0 :: A0).length - 1)
            (l1, updateTable t1 (pruneDict rd l1 B))) = _
          have hsetlen : (a0 :: A0).length - 1
              = ((a0 :: A0).dropLast.map (pruneEntry rd l1)).length := by
            simp [List.length_dropLast]
          rw [hmap, List.append_assoc, hsetlen, set_append_length]
          rfl
        · intro e he
          rcases List.mem_map.mp he with ⟨a, ha, rfl⟩
          rw [pruneEntry_fst]
          exact hXlt a ha
        · intro e he
          rcases List.mem_map.mp he with ⟨a, ha, rfl⟩
          exact pruneEntry_idem rd l1 a
        · have hndt1 : (keysOf t1).Nodup :=
            hnd (l1, t1) (List.mem_append.mpr (Or.inl hglmem))
          exact updateTable_idem hndt1 (nodup_pruneDict hrd)

/-- C9: loading the same `(table, L)` pair twice consecutively is a
no-op: the second `load` returns the very same state, so the flattened
`get_result` list after the second load equals the one after the
first. -/
theorem load_twice_idempotent {α : Type} [DecidableEq α]
    {st st₁ : List (Nat × Table α)} {rd : Table α} {L : Nat}
    (hre : ReachableCombiner st) (hrd : (keysOf rd).Nodup)
    (h1 : loadResult st rd L = some st₁) :
    ∃ st₂, loadResult st₁ rd L = some st₂ ∧
      combinedResult st₂ = combinedResult st₁ := by
  obtain ⟨P, B, T, rfl, hP, hB, hPfix, hTfix⟩ :=
    loadResult_shape (combinerInv_of_reachable hre) hrd h1
  exact ⟨_, loadResult_fixed P B T rd L hP hB hPfix hTfix, rfl⟩

/-- Witness for C9: loading `{[1,2]: 1}` at length 2 twice in a row into
the Combiner that already holds length 1 leaves the flattened result of
the first load unchanged. -/
theorem load_twice_idempotent_witness :
    ∃ st₂, loadResult [(1, ([([0],1)] : Table Nat)), (2, [([1,2],1)])] [([1,2],1)] 2
        = some st₂ ∧
      combinedResult st₂
        = combinedResult [(1, ([([0],1)] : Table Nat)), (2, [([1,2],1)])] :=
  load_twice_idempotent
    (@ReachableCombiner.step Nat _ [] [(1, [([0],1)])] [([0],1)] 1
      ReachableCombiner.base (by decide) (by decide))
    (by decide) (by decide)

end Engine

namespace Engine

/-- Python `set(xs)` used only for iteration/membership: deduplicated in
first-occurrence order.  (CPython's set iteration order is hash-based
and run-dependent; the spec flags the resulting tie-break as
nondeterministic, and every property proved below is insensitive to the
order chosen.) -/
def dedupFirst {γ : Type} [DecidableEq γ] : List γ → List γ
  | [] => []
  | x :: xs => x :: (dedupFirst xs).filter (fun y => y ≠ x)

/-- `collections.Counter(xs) - Counter(ys)` followed by `.elements()`:
multiset difference, each surviving key listed `count` times in `xs`'s
first-occurrence order. -/
def counterSub {γ : Type} [DecidableEq γ] (xs ys : List γ) : List γ :=
  (dedupFirst xs).flatMap (fun x => List.replicate (xs.count x - ys.count x) x)

/-- The tally `counter[i]` of `_find_best_matches`: how many distinct
tokens of the candidate occur in group `i` (built through the inverted
index, which touches exactly the groups sharing a token). -/
def overlapCount {γ : Type} [DecidableEq γ] (a b : List γ) : Nat :=
  ((dedupFirst a).filter (fun t => t ∈ b)).length

/-- `max(counter, key=...)` with the iteration-order tie-break
determinized to the lowest group index; `none` models the
`if not counter: continue` skip (candidate shares no token with any
group). -/
def bestIdx {γ : Type} [DecidableEq γ] (a : List γ) (B : List (List γ)) :
    Option Nat :=
  let m := ((List.range B.length).map
    (fun i => overlapCount a (B.getD i []))).foldl max 0
  if m = 0 then none
  else (List.range B.length).find? (fun i => overlapCount a (B.getD i []) = m)

/-- All positions of `item` in a group's token sequence
(`for i, x in enumerate(B[best_idx]): if x == item`). -/
def positionsOf {γ : Type} [DecidableEq γ] (b : List γ) (item : γ) : List Nat :=
  (b.enum.filter (fun p => p.2 = item)).map Prod.fst

/-- The `pos_list` of an accepted match: positions of every common token
of candidate and best group (`set(a) & set(B[best_idx])`). -/
def posList {γ : Type} [DecidableEq γ] (a b : List γ) : List Nat :=
  ((dedupFirst a).filter (fun t => t ∈ b)).flatMap (positionsOf b)

/-- `CredentialConnectingAttack._find_best_matches`
(`credential_connecting.py` lines 117-144): one `([best_idx], [pos_list])`
entry per candidate whose best tally reaches `min_overlap`; candidates
with an empty counter or a low tally produce no entry, compacting the
result list. -/
def find_best_matches {γ : Type} [DecidableEq γ]
    (A B : List (List γ)) (minOv : Nat) : List (List Nat × List (List Nat)) :=
  A.filterMap (fun a =>
    match bestIdx a B with
    | none => none
    | some i =>
      if minOv ≤ overlapCount a (B.getD i []) then
        some ([i], [posList a (B.getD i [])])
      else none)

/-- `matches_list` (aligned plaintexts of the matched positions). -/
def matchesOf {δ : Type} [Inhabited δ]
    (plainD : List (List δ)) (gidx : Nat) (det : List Nat) : List δ :=
  det.map (fun d => (plainD.getD gidx []).getD d default)

/-- The dict key `str(sorted(matches_list))` of the dedup set. -/
def recordKey {δ : Type} [LinearOrder δ] [Inhabited δ]
    (plainD : List (List δ)) (gidx : Nat) (det : List Nat) : List δ :=
  List.insertionSort (· ≤ ·) (matchesOf plainD gidx det)

/-- Inner loop of `run` (`credential_connecting.py` lines 99-113) over
`enumerate(details)` paired with `indices[pos]`, threading the
`match_test` dedup set. -/
def innerRecords {γ δ : Type} [DecidableEq γ] [LinearOrder δ] [Inhabited γ] [Inhabited δ]
    (hashD : List (List γ)) (plainD : List (List δ)) (query : List γ) :
    List (Nat × List Nat) → List (List δ) →
      List (List δ × List γ × List δ) × List (List δ)
  | [], seen => ([], seen)
  | (gidx, det) :: rest, seen =>
    let matches_list := matchesOf plainD gidx det
    let key := List.insertionSort (· ≤ ·) matches_list
    if key ∈ seen then innerRecords hashD plainD query rest seen
    else
      let matches_hash_list := matchesOf hashD gidx det
      let unmatches_list := counterSub query matches_hash_list
      let other_candidate := counterSub (plainD.getD gidx []) matches_list
      let out := innerRecords hashD plainD query rest (key :: seen)
      ((matches_list, unmatches_list, other_candidate) :: out.1, out.2)

/-- Outer loop of `run` over `enumerate(match_result_list)`; note the
candidate is fetched as `identified_queries[idpos]` with `idpos` the
position in the *compacted* match list. -/
def outerRecords {γ δ : Type} [DecidableEq γ] [LinearOrder δ] [Inhabited γ] [Inhabited δ]
    (hashD : List (List γ)) (plainD : List (List δ)) (queries : List (List γ)) :
    List (Nat × (List Nat × List (List Nat))) → List (List δ) →
      List (List δ × List γ × List δ)
  | [], _ => []
  | (idpos, (indices, details)) :: rest, seen =>
    if indices.length = 0 then outerRecords hashD plainD queries rest seen
    else
      let out := innerRecords hashD plainD (queries.getD idpos [])
        (indices.zip details) seen
      out.1 ++ outerRecords hashD plainD queries rest out.2

/-- `CredentialConnectingAttack.run` (`credential_connecting.py` lines
81-115): find the best matches, then resolve each accepted match into a
`[matches_list, unmatches_list, other_candidate]` record, deduplicated
by the sorted matched-plaintext list. -/
def runConnect {γ δ : Type} [DecidableEq γ] [LinearOrder δ] [Inhabited γ] [Inhabited δ]
    (hashD : List (List γ)) (plainD : List (List δ))
    (queries : List (List γ)) (minOv : Nat) :
    List (List δ × List γ × List δ) :=
  outerRecords hashD plainD queries
    (find_best_matches queries hashD minOv).enum []

end Engine

namespace Engine

/-- C5: a single LeakedGroup of 11 distinct tokens (0..10, passing the
`> 10` size filter) with aligned plaintexts 100..110, matched against
the single candidate signature `{0,1,2}` with `min_overlap = 2`, yields
exactly one ConnectionRecord: matched plaintexts of tokens 0,1,2, no
unmatched token, and the remaining eight plaintexts as other
candidates. -/
theorem matcher_single_group_record :
    runConnect [[0,1,2,3,4,5,6,7,8,9,10]]
        [[100,101,102,103,104,105,106,107,108,109,110]] [[0,1,2]] 2
      = [([100,101,102], [], [103,104,105,106,107,108,109,110])] := by
  decide

/-- C4 failing input: queries `[[9],[5,6]]` against the single group
with tokens `[5,6,7]` and plaintexts `[50,60,70]`, `min_overlap = 1`.
The first candidate produces no match, so the match list is compacted;
`run` then reads `identified_queries[0]` — the non-matching candidate
`[9]` — when resolving the match of `[5,6]`, and emits `[9]` as the
unmatched list although every token of `[5,6]` occurs in the matched
group (the claim, and the spec, require an empty unmatched list). -/
theorem matcher_misaligned_unmatched :
    runConnect [[5,6,7]] [[50,60,70]] [([9] : List Nat), [5,6]] 1
      = [([50,60], [9], [70])] ∧ ([9] : List Nat) ≠ [] := by
  refine ⟨by decide, by decide⟩

theorem innerRecords_spec {γ δ : Type} [DecidableEq γ] [LinearOrder δ]
    [Inhabited γ] [Inhabited δ]
    (hashD : List (List γ)) (plainD : List (List δ)) (query : List γ) :
    ∀ (ds : List (Nat × List Nat)) (seen : List (List δ)),
      (∀ k, k ∈ (innerRecords hashD plainD query ds seen).2 ↔
        k ∈ seen ∨ k ∈ (innerRecords hashD plainD query ds seen).1.map
          (fun r => List.insertionSort (· ≤ ·) r.1)) ∧
      ((innerRecords hashD plainD query ds seen).1.map
        (fun r => List.insertionSort (· ≤ ·) r.1)).Nodup ∧
      (∀ k ∈ (innerRecords hashD plainD query ds seen).1.map
        (fun r => List.insertionSort (· ≤ ·) r.1), k ∉ seen) ∧
      (∀ k, k ∈ (innerRecords hashD plainD query ds seen).1.map
          (fun r => List.insertionSort (· ≤ ·) r.1) ↔
        (k ∉ seen ∧ ∃ p ∈ ds, k = recordKey plainD p.1 p.2)) := by
  intro ds
  induction ds with
  | nil =>
    intro seen
    refine ⟨by simp [innerRecords], by simp [innerRecords], by simp [innerRecords],
      by simp [innerRecords]⟩
  | cons p rest ih =>
    intro seen
    obtain ⟨gidx, det⟩ := p
    by_cases hk : List.insertionSort (· ≤ ·) (matchesOf plainD gidx det) ∈ seen
    · have hun : innerRecords hashD plainD query ((gidx, det) :: rest) seen
          = innerRecords hashD plainD query rest seen := by
        simp only [innerRecords]
        rw [if_pos hk]
      rw [hun]
      rcases ih seen with ⟨ih1, ih2, ih3, ih4⟩
      refine ⟨ih1, ih2, ih3, ?_⟩
      intro k
      rw [ih4 k]
      constructor
      · rintro ⟨hks, p', hp', rfl⟩
        exact ⟨hks, p', List.mem_cons_of_mem _ hp', rfl⟩
      · rintro ⟨hks, p', hp', rfl⟩
        rcases List.mem_cons.mp hp' with heq | hp''
        · exact absurd (by rw [heq]; exact hk) hks
        · exact ⟨hks, p', hp'', rfl⟩
    · have hun : innerRecords hashD plainD query ((gidx, det) :: rest) seen
          = ((matchesOf plainD gidx det,
              counterSub query (matchesOf hashD gidx det),
              counterSub (plainD.getD gidx []) (matchesOf plainD gidx det)) ::
              (innerRecords hashD plainD query rest
                (List.insertionSort (· ≤ ·) (matchesOf plainD gidx det) :: seen)).1,
              (innerRecords hashD plainD query rest
                (List.insertionSort (· ≤ ·) (matchesOf plainD gidx det) :: seen)).2) := by
        simp only [innerRecords]
        rw [if_neg hk]
      rw [hun]
      rcases ih (List.insertionSort (· ≤ ·) (matchesOf plainD gidx det) :: seen)
        with ⟨ih1, ih2, ih3, ih4⟩
      refine ⟨?_, ?_, ?_, ?_⟩
      · intro k
        rw [ih1 k]
        simp only [List.map_cons, List.mem_cons]
        tauto
      · simp only [List.map_cons]
        rw [List.nodup_cons]
        refine ⟨?_, ih2⟩
        intro hmem
        exact ih3 _ hmem (List.mem_cons_self _ _)
      · intro k hkmem
        simp only [List.map_cons, List.mem_cons] at hkmem
        rcases hkmem with rfl | hkmem'
        · exact hk
        · intro hks
          exact ih3 k hkmem' (List.mem_cons_of_mem _ hks)
      · intro k
        simp only [List.map_cons, List.mem_cons]
        constructor
        · rintro (rfl | hkmem)
          · exact ⟨hk, (gidx, det), Or.inl rfl, rfl⟩
          · rcases (ih4 k).mp hkmem with ⟨hks, p', hp', rfl⟩
            exact ⟨fun hc => hks (List.mem_cons_of_mem _ hc), p', Or.inr hp', rfl⟩
        · rintro ⟨hks, p', hp', rfl⟩
          rcases hp' with heq | hp''
          · rw [heq]
            exact Or.inl rfl
          · by_cases hkey : recordKey plainD p'.1 p'.2
                = List.insertionSort (· ≤ ·) (matchesOf plainD gidx det)
            · exact Or.inl hkey
            · refine Or.inr ((ih4 _).mpr ⟨?_, p', hp'', rfl⟩)
              intro hc
              rcases List.mem_cons.mp hc with heq' | hc'
              · exact hkey heq'
              · exact hks hc'

end Engine

namespace Engine

theorem outerRecords_spec {γ δ : Type} [DecidableEq γ] [LinearOrder δ]
    [Inhabited γ] [Inhabited δ]
    (hashD : List (List γ)) (plainD : List (List δ)) (queries : List (List γ)) :
    ∀ (ms : List (Nat × (List Nat × List (List Nat)))) (seen : List (List δ)),
      ((outerRecords hashD plainD queries ms seen).map
        (fun r => List.insertionSort (· ≤ ·) r.1)).Nodup ∧
      (∀ k, k ∈ (outerRecords hashD plainD queries ms seen).map
          (fun r => List.insertionSort (· ≤ ·) r.1) ↔
        (k ∉ seen ∧ ∃ m ∈ ms, m.2.1.length ≠ 0 ∧
          ∃ p ∈ m.2.1.zip m.2.2, k = recordKey plainD p.1 p.2)) := by
  intro ms
  induction ms with
  | nil =>
    intro seen
    refine ⟨by simp [outerRecords], by simp [outerRecords]⟩
  | cons m rest ih =>
    intro seen
    obtain ⟨idpos, indices, details⟩ := m
    by_cases hz : indices.length = 0
    · have hun : outerRecords hashD plainD queries ((idpos, indices, details) :: rest) seen
          = outerRecords hashD plainD queries rest seen := by
        simp only [outerRecords]
        rw [if_pos hz]
      rw [hun]
      rcases ih seen with ⟨ih1, ih2⟩
      refine ⟨ih1, ?_⟩
      intro k
      rw [ih2 k]
      constructor
      · rintro ⟨hks, m', hm', hlen, hp⟩
        exact ⟨hks, m', List.mem_cons_of_mem _ hm', hlen, hp⟩
      · rintro ⟨hks, m', hm', hlen, hp⟩
        rcases List.mem_cons.mp hm' with heq | hm''
        · exact absurd (by rw [heq] at hlen; exact hlen) (by simp [hz])
        · exact ⟨hks, m', hm'', hlen, hp⟩
    · have hun : outerRecords hashD plainD queries ((idpos, indices, details) :: rest) seen
          = (innerRecords hashD plainD (queries.getD idpos [])
              (indices.zip details) seen).1
            ++ outerRecords hashD plainD queries rest
              (innerRecords hashD plainD (queries.getD idpos [])
                (indices.zip details) seen).2 := by
        simp only [outerRecords]
        rw [if_neg hz]
      rw [hun]
      rcases innerRecords_spec hashD plainD (queries.getD idpos [])
        (indices.zip details) seen with ⟨in1, in2, in3, in4⟩
      rcases ih (innerRecords hashD plainD (queries.getD idpos [])
        (indices.zip details) seen).2 with ⟨ih1, ih2⟩
      rw [List.map_append]
      refine ⟨?_, ?_⟩
      · rw [List.nodup_append]
        refine ⟨in2, ih1, ?_⟩
        intro k hkin hkout
        have := (ih2 k).mp hkout
        exact this.1 ((in1 k).mpr (Or.inr hkin))
      · intro k
        rw [List.mem_append, ih2 k, in4 k]
        constructor
        · rintro (⟨hks, p', hp', rfl⟩ | ⟨hks', m', hm', hlen, hp⟩)
          · exact ⟨hks, (idpos, indices, details), List.mem_cons_self _ _, hz,
              p', hp', rfl⟩
          · have hks : k ∉ seen := fun hc => hks' ((in1 k).mpr (Or.inl hc))
            exact ⟨hks, m', List.mem_cons_of_mem _ hm', hlen, hp⟩
        · rintro ⟨hks, m', hm', hlen, p', hp', rfl⟩
          rcases List.mem_cons.mp hm' with heq | hm''
          · left
            refine ⟨hks, ?_⟩
            rw [heq] at hp'
            exact ⟨p', hp', rfl⟩
          · by_cases hkin : recordKey plainD p'.1 p'.2
                ∈ (innerRecords hashD plainD (queries.getD idpos [])
                  (indices.zip details) seen).1.map
                  (fun r => List.insertionSort (· ≤ ·) r.1)
            · left
              rcases (in4 _).mp hkin with ⟨hks2, p2, hp2, hk2⟩
              exact ⟨hks2, p2, hp2, hk2⟩
            · right
              refine ⟨?_, m', hm'', hlen, p', hp', rfl⟩
              intro hc
              rcases (in1 _).mp hc with hc1 | hc2
              · exact hks hc1
              · exact hkin hc2

theorem find_best_matches_shape {γ : Type} [DecidableEq γ]
    (A B : List (List γ)) (minOv : Nat) :
    ∀ e ∈ find_best_matches A B minOv, ∃ i p, e = ([i], [p]) := by
  intro e he
  rcases List.mem_filterMap.mp he with ⟨a, _, hfa⟩
  split at hfa
  · cases hfa
  · split at hfa
    · cases hfa
      exact ⟨_, _, rfl⟩
    · cases hfa

/-- C8: across one whole `run`, the sorted matched-plaintext lists of
the emitted ConnectionRecords are pairwise distinct, and every accepted
match contributes its sorted matched-plaintext list to the output — so
two candidates resolving to the identical sorted matched-plaintext set
produce exactly one record with that set. -/
theorem connect_dedup {γ δ : Type} [DecidableEq γ] [LinearOrder δ]
    [Inhabited γ] [Inhabited δ]
    (hashD : List (List γ)) (plainD : List (List δ))
    (queries : List (List γ)) (minOv : Nat) :
    ((runConnect hashD plainD queries minOv).map
      (fun r => List.insertionSort (· ≤ ·) r.1)).Nodup ∧
    ∀ m ∈ (find_best_matches queries hashD minOv).enum,
      ∀ p ∈ m.2.1.zip m.2.2,
        recordKey plainD p.1 p.2 ∈ (runConnect hashD plainD queries minOv).map
          (fun r => List.insertionSort (· ≤ ·) r.1) := by
  rcases outerRecords_spec hashD plainD queries
    (find_best_matches queries hashD minOv).enum [] with ⟨h1, h2⟩
  refine ⟨h1, ?_⟩
  intro m hm p hp
  refine (h2 _).mpr ⟨by simp, m, hm, ?_, p, hp, rfl⟩
  rcases find_best_matches_shape queries hashD minOv m.2
    (List.snd_mem_of_mem_enum hm) with ⟨i, pl, hsh⟩
  rw [hsh]
  simp

/-- Witness for C8 on a concrete run: candidates `[5,6]` and `[6,5]`
both resolve to the matched-plaintext set `{50,60}` of the single group,
and exactly one record appears. -/
theorem connect_dedup_witness :
    ((runConnect [[5,6,7]] [[50,60,70]] [([5,6] : List Nat), [6,5]] 1).map
      (fun r => List.insertionSort (· ≤ ·) r.1)).Nodup ∧
    ∀ m ∈ (find_best_matches [([5,6] : List Nat), [6,5]] [[5,6,7]] 1).enum,
      ∀ p ∈ m.2.1.zip m.2.2,
        recordKey [[50,60,70]] p.1 p.2
          ∈ (runConnect [[5,6,7]] [[50,60,70]] [([5,6] : List Nat), [6,5]] 1).map
            (fun r => List.insertionSort (· ≤ ·) r.1) :=
  connect_dedup [[5,6,7]] [[50,60,70]] [([5,6] : List Nat), [6,5]] 1

end Engine
